import Mathlib

/-!
# affxml: segment encoding and page statistics

A shallow embedding of `tools/affxml.cpp` (AFFLIB): the printable-text test
`okay_to_print`, the blank-sector test `is_blank`, the per-segment body of the
emission loop of `xml_info`, its page-statistics loop, the loop that builds its
segment and page lists, and the option loop of `main`.

Conventions of the embedding.
* A byte (`unsigned char`, or the bit pattern of a `char`) is a `Fin 256`.
* A buffer together with its length argument is a `List Byte`.
* A segment name is the list of its characters, without the terminating NUL.
* Text written to `stdout` is a `List Char`.
* Library routines of AFFLIB that `affxml.cpp` only calls are fields of
  `Afflib`, so every theorem holds for any implementation of them.
* Payload lengths are taken to fit the `int` parameters they are passed to.
-/

namespace Affxml

/-- One octet. -/
abbrev Byte := Fin 256

/-- The value read by `*cc` for `const char *cc`: the octet itself where `char`
is unsigned, its two's complement reading where `char` is signed. -/
def char_val (char_signed : Bool) (b : Byte) : Int :=
  if char_signed && decide (128 ≤ b.val) then (b.val : Int) - 256 else (b.val : Int)

/-- The function `okay_to_print(data, datalen)`: the list holds the `datalen` bytes at `data`.
Each loop iteration either returns `false` or goes on to the next byte. -/
def okay_to_print (char_signed : Bool) : List Byte → Bool
  | [] => true
  | b :: rest =>
    if char_val char_signed b ≤ 0 then false
    else if char_val char_signed b = 10 ∨ char_val char_signed b = 13 then
      okay_to_print char_signed rest
    else if char_val char_signed b < 32 then false
    else if char_val char_signed b ≥ 127 then false
    else okay_to_print char_signed rest

/-- The function `is_blank(buf, len)`: the list holds the `len` bytes at `buf`. -/
def is_blank : List Byte → Bool
  | [] => true
  | b :: rest => if b ≠ 0 then false else is_blank rest

/-! ### Library routines called by `xml_info` -/

/-- The AFFLIB routines and constants that `affxml.cpp` uses and does not define. -/
structure Afflib where
  /-- Whether plain `char` is a signed type on the platform. -/
  char_signed : Bool
  /-- The flag bit `AF_SEG_QUADWORD` of a segment argument. -/
  AF_SEG_QUADWORD : Nat
  /-- The test `af_display_as_quad(segname)`, as a truth value. -/
  af_display_as_quad : List Char → Bool
  /-- The 64-bit value `af_decode_q(data)` of an 8-byte buffer. -/
  af_decode_q : List Byte → Nat
  /-- The sector size `af_get_sectorsize(af)`. -/
  af_get_sectorsize : Nat
  /-- The bytes `af_get_page(af, pagenum, data, &pagesize)` stores for a page, `none` when
  the call reports an error. -/
  af_get_page : Int → Option (List Byte)
  /-- The test `af_is_badsector(af, s)` on the sector at `s`, as a truth value. -/
  af_is_badsector : List Byte → Bool
  /-- The segment name `AF_DIRECTORY`. -/
  AF_DIRECTORY : List Char
  /-- The string `AF_AES256_SUFFIX`. -/
  AF_AES256_SUFFIX : List Char
  /-- The value `af_segname_page_number(segname)`: the page number of a page segment, a
  negative number for any other name. -/
  af_segname_page_number : List Char → Int

/-- What `printf` writes for the conversion `PRIu32`. -/
def fmt_PRIu32 (arg : Nat) : List Char := Nat.toDigits 10 (arg % 2 ^ 32)

/-- What `printf` writes for the conversion `I64d`: the argument read as a signed
64-bit integer. -/
def fmt_I64d (val : Nat) : List Char :=
  if val % 2 ^ 64 < 2 ^ 63 then Nat.toDigits 10 (val % 2 ^ 64)
  else '-' :: Nat.toDigits 10 (2 ^ 64 - val % 2 ^ 64)

/-- The digit `printf` writes for one nibble under `%02x`. -/
def hex_digit (n : Nat) : Char := "0123456789abcdef".toList.getD n '0'

/-- Modelled from the spec: `af_hexbuf(dst, dst_len, bin, bytes, 0)` of AFFLIB, which is
not part of `affxml.cpp`. The payload is rendered as lowercase hexadecimal, two characters
per byte, no separators; a byte is rendered only while its two characters and the
terminating NUL fit in what is left of the `dst_len` bytes at `dst` (`dst_len > 3`, every
byte using up two). The result is the C string at `dst`. -/
def af_hexbuf (dst_len : Nat) : List Byte → List Char
  | [] => []
  | b :: rest =>
    if dst_len > 3 then
      hex_digit (b.val / 16) :: hex_digit (b.val % 16) :: af_hexbuf (dst_len - 2) rest
    else []

/-- The standard base64 alphabet. -/
def Base64 : List Char :=
  "ABCDEFGHIJKLMNOPQRSTUVWXYZabcdefghijklmnopqrstuvwxyz0123456789+/".toList

/-- The padding character of base64. -/
def Pad64 : Char := '='

/-- The base64 character of a 6-bit value. -/
def b64_char (n : Nat) : Char := Base64.getD n Pad64

/-- The base64 text of a byte sequence: standard alphabet, `=` padding, no line breaks. -/
def b64_text : List Byte → List Char
  | [] => []
  | [a] => [b64_char (a.val / 4), b64_char (a.val % 4 * 16), Pad64, Pad64]
  | [a, b] =>
    [b64_char (a.val / 4), b64_char (a.val % 4 * 16 + b.val / 16),
      b64_char (b.val % 16 * 4), Pad64]
  | a :: b :: c :: rest =>
    b64_char (a.val / 4) :: b64_char (a.val % 4 * 16 + b.val / 16) ::
      b64_char (b.val % 16 * 4 + c.val / 64) :: b64_char (c.val % 64) :: b64_text rest

/-- Modelled from the spec: `b64_ntop(src, srclength, target, targsize)` of AFFLIB's
`base64.h`, which is not part of `affxml.cpp`. It writes the base64 text of the source
(standard alphabet, no line wrapping) and a terminating NUL into the `targsize` bytes at
`target` and returns the length of the text; when text and terminator do not fit it
returns -1, and then nothing is known about the bytes at `target`. The result is
`some text` for a successful call and `none` for the return value -1. -/
def b64_ntop (src : List Byte) (targsize : Nat) : Option (List Char) :=
  if (b64_text src).length < targsize then some (b64_text src) else none

/-! ### The emission loop of `xml_info` -/

/-- The loop `for(char *cc=segname;*cc;cc++) if(!isalphanum(*cc)) *cc = '_';`. -/
def sanitize (segname : List Char) : List Char :=
  segname.map (fun c => if c.isAlphanum then c else '_')

/-- The test `strlen(segname)>=3 && strcmp(segname+strlen(segname)-3,"md5")==0`. -/
def ends_md5 (segname : List Char) : Bool :=
  decide (segname.length ≥ 3) && decide (segname.drop (segname.length - 3) = "md5".toList)

/-- The `switch(*cc)` of the printable branch: what is written for one payload byte. -/
def escape_byte (b : Byte) : List Char :=
  if b.val = 62 then "&lt;".toList          -- case '>'
  else if b.val = 60 then "&gt;".toList     -- case '<'
  else if b.val = 38 then "&amp;".toList    -- case '&'
  else if b.val = 39 then "&apos;".toList   -- case '\''
  else if b.val = 34 then "&quot;".toList   -- case '"'
  else [Char.ofNat b.val]                   -- default: putchar(*cc)

/-- The loop over the payload in the printable branch. -/
def escape_text (data : List Byte) : List Char :=
  data.flatMap escape_byte

/-- The places of the loop body at which an iteration ends, in source order; `ArgAttribute`
is the second `if(datalen==0)`, after the opening tag has been started. -/
inductive Branch where
  | Quad64
  | RawArgument
  | ArgAttribute
  | Hex
  | EscapedText
  | Base64
  deriving DecidableEq, Repr

/-- What one iteration of the emission loop writes to `stdout`: everything up to the
element content, the content, everything after it. The content is `none` in one case
only: `b64_ntop` returned -1, so that `b64buf[b64size_real] = 0` stores outside `b64buf`
and `fputs` reads a buffer whose contents are not known. -/
structure SegOutput where
  branch : Branch
  head : List Char
  body : Option (List Char)
  tail : List Char
  deriving DecidableEq, Repr

/-- All the text of an iteration, when its content is known. -/
def SegOutput.text (o : SegOutput) : Option (List Char) :=
  o.body.map (fun b => o.head ++ b ++ o.tail)

/-- The body of the loop `for(it = seglist.begin(); ...)` of `xml_info`, for a segment
`name` whose two `af_get_seg` calls succeeded and gave the argument `arg` and the payload
`data` (`datalen` is its length). -/
def xml_info_segment (lib : Afflib) (name : List Char) (arg : Nat) (data : List Byte) :
    SegOutput :=
  let datalen := data.length
  let segname := sanitize name
  if datalen = 8 ∧
      (Nat.land (arg % 2 ^ 32) lib.AF_SEG_QUADWORD ≠ 0 ∨ lib.af_display_as_quad segname = true) then
    { branch := Branch.Quad64
      head := "    <".toList ++ segname ++ " coding='base10'>".toList
      body := some (fmt_I64d (lib.af_decode_q data))
      tail := "</".toList ++ segname ++ ">\n".toList }
  else if datalen = 0 then
    { branch := Branch.RawArgument
      head := "    <".toList ++ segname ++ " coding='base10'>".toList
      body := some (fmt_PRIu32 arg)
      tail := "</".toList ++ segname ++ ">\n".toList }
  else
    let opened := "    <".toList ++ segname
    if datalen = 0 then
      { branch := Branch.ArgAttribute
        head := opened ++ " arg='".toList ++ fmt_PRIu32 arg ++ "' />\n".toList
        body := some []
        tail := [] }
    else if ends_md5 segname = true then
      { branch := Branch.Hex
        head := opened ++ " coding='base16'>".toList
        body := some (af_hexbuf 40 data)
        tail := "</".toList ++ segname ++ ">\n".toList }
    else if okay_to_print lib.char_signed data = true then
      { branch := Branch.EscapedText
        head := opened ++ ">".toList
        body := some (escape_text data)
        tail := "</".toList ++ segname ++ ">\n".toList }
    else
      let b64size := datalen * 2 + 2
      { branch := Branch.Base64
        head := opened ++ " coding='base64'>".toList
        body := b64_ntop data b64size
        tail := "</".toList ++ segname ++ ">\n".toList }

/-- A library instance for evaluating the loop at concrete inputs: signed `char`, flag
bit 2, the name "imagesize" shown as a quad, big-endian decoding, 512-byte sectors, no
page, no bad sector, the directory name "dir", the suffix "/aes256", the page segments
"page0" and "page1". -/
def sample_lib : Afflib where
  char_signed := true
  AF_SEG_QUADWORD := 2
  af_display_as_quad := fun n => decide (n = "imagesize".toList)
  af_decode_q := fun d => d.foldl (fun acc b => acc * 256 + b.val) 0
  af_get_sectorsize := 512
  af_get_page := fun _ => none
  af_is_badsector := fun _ => false
  AF_DIRECTORY := "dir".toList
  AF_AES256_SUFFIX := "/aes256".toList
  af_segname_page_number := fun n =>
    if n = "page0".toList then 0 else if n = "page1".toList then 1 else -1

/-! ### The statistics loop of `xml_info` -/

/-- The `struct page_stat_block`; every counter is a `uint64_t`. -/
structure page_stat_block where
  /-- Number of sectors that are all blank. -/
  zsectors : Nat
  /-- Number of bad sectors. -/
  badsectors : Nat
  /-- Number of pages that are all blank. -/
  zpages : Nat
  /-- Total number of pages. -/
  pages : Nat
  /-- Total number of sectors. -/
  sectors : Nat
  deriving DecidableEq, Repr

/-- The statement `x++` on a `uint64_t`. -/
def incr64 (x : Nat) : Nat := (x + 1) % 2 ^ 64

/-- The loop `for(s = data; s < data+pagesize; s+=sectorsize)` over one page, seen on the
bytes of the page alone. The list is the bytes from `s` to `data+pagesize`, the state is
`psb` and `allblank`, the first argument bounds the number of iterations still to run. The
result is `none` when the bound is used up with bytes left (a sector size of 0 never
advances `s`) and when the sector at `s` runs past `data+pagesize`: the bytes read there
are not bytes of the page but what the buffer holds behind it, and `sector_loop_buf`, which
has the buffer in view, is the loop for that case. On pages of whole sectors the two agree
(`sector_loop_buf_whole`). -/
def sector_loop (lib : Afflib) :
    Nat → List Byte → page_stat_block × Bool → Option (page_stat_block × Bool)
  | _, [], st => some st
  | 0, _ :: _, _ => none
  | fuel + 1, b :: bs, (psb, allblank) =>
    if (b :: bs).length < lib.af_get_sectorsize then none
    else
      let s := (b :: bs).take lib.af_get_sectorsize
      let psb1 := { psb with sectors := incr64 psb.sectors }
      if is_blank s = true then
        sector_loop lib fuel ((b :: bs).drop lib.af_get_sectorsize)
          ({ psb1 with zsectors := incr64 psb1.zsectors }, allblank)
      else if lib.af_is_badsector s = true then
        sector_loop lib fuel ((b :: bs).drop lib.af_get_sectorsize)
          ({ psb1 with badsectors := incr64 psb1.badsectors }, false)
      else
        sector_loop lib fuel ((b :: bs).drop lib.af_get_sectorsize) (psb1, false)

/-- The loop `for(it = pagelist.begin(); it != pagelist.end(); it++)` under `if(opt_stats)`.
The result is `none` when `af_get_page` fails (the program exits through `err`) and when the
sector loop of a page gives `none`. A page of `pagesize` bytes needs at most `pagesize`
iterations of the sector loop when the sector size is positive. -/
def stats_loop (lib : Afflib) : List Int → page_stat_block → Option page_stat_block
  | [], psb => some psb
  | it :: rest, psb =>
    match lib.af_get_page it with
    | none => none
    | some data =>
      match sector_loop lib data.length data ({ psb with pages := incr64 psb.pages }, true) with
      | none => none
      | some (psb1, allblank) =>
        stats_loop lib rest (if allblank = true then { psb1 with zpages := incr64 psb1.zpages }
          else psb1)

/-- The block after `memset(&psb,0,sizeof(psb))`. -/
def psb_zero : page_stat_block :=
  { zsectors := 0, badsectors := 0, zpages := 0, pages := 0, sectors := 0 }

/-- The statistics of `xml_info` for a page list. -/
def xml_info_stats (lib : Afflib) (pagelist : List Int) : Option page_stat_block :=
  stats_loop lib pagelist psb_zero

/-! ### Reference definition of the tally -/

/-- Reference: the sector chunks of a page, `page length / S` consecutive blocks of `S`
bytes. -/
def ref_sector_chunks (S : Nat) (page : List Byte) : List (List Byte) :=
  (List.range (page.length / S)).map (fun k => (page.drop (k * S)).take S)

/-- Reference: the bytes of the page with a given index, empty when there is none. -/
def ref_page (lib : Afflib) (it : Int) : List Byte := (lib.af_get_page it).getD []

/-- Reference: the tally of a page list, as counts over the pages and their sector chunks. -/
def ref_tally (lib : Afflib) (pagelist : List Int) : page_stat_block :=
  { pages := pagelist.length
    sectors := ((pagelist.map (ref_page lib)).map
      (fun p => p.length / lib.af_get_sectorsize)).sum
    zsectors := ((pagelist.map (ref_page lib)).flatMap
      (ref_sector_chunks lib.af_get_sectorsize)).countP is_blank
    badsectors := ((pagelist.map (ref_page lib)).flatMap
      (ref_sector_chunks lib.af_get_sectorsize)).countP
        (fun c => !is_blank c && lib.af_is_badsector c)
    zpages := (pagelist.map (ref_page lib)).countP
      (fun p => (ref_sector_chunks lib.af_get_sectorsize p).all is_blank) }

/-- A library instance with 2-byte sectors and three pages: page 0 is blank, page 1 has a
blank, a bad and a normal sector, page 2 is empty; a sector is bad when it starts with the
byte 255. -/
def sample_pages : Afflib :=
  { sample_lib with
    af_get_sectorsize := 2
    af_get_page := fun i =>
      if i = 0 then some [0, 0, 0, 0]
      else if i = 1 then some [0, 0, 255, 1, 7, 0]
      else if i = 2 then some []
      else none
    af_is_badsector := fun s => decide (s.head? = some 255) }

/-- A library instance with 512-byte sectors whose page 0 is 4096 zero bytes and in which
every sector is flagged bad. -/
def sample_zero_page : Afflib :=
  { sample_lib with
    af_get_sectorsize := 512
    af_get_page := fun i => if i = 0 then some (List.replicate (8 * 512) 0) else none
    af_is_badsector := fun _ => true }

/-! ### The segment list of `xml_info` -/

/-- The function `in_opt_j_list(segname)`: the loop over the `opt_j_count` entries of
`opt_j`, with `strcmp(segname,opt_j[i])==0` as equality of the two strings. -/
def in_opt_j_list (opt_j : List (List Char)) (segname : List Char) : Bool :=
  match opt_j with
  | [] => false
  | entry :: rest => if segname = entry then true else in_opt_j_list rest segname

/-- Whether the string `s` begins with the string `t`. -/
def starts_with : List Char → List Char → Bool
  | _, [] => true
  | [], _ :: _ => false
  | c :: s, d :: t => decide (c = d) && starts_with s t

/-- The test `strstr(haystack, needle) != NULL`. -/
def strstr : List Char → List Char → Bool
  | [], needle => starts_with [] needle
  | c :: s, needle => starts_with (c :: s) needle || strstr s needle

/-- The statement `pages += 1` on an `int`, as a two's complement machine computes it. -/
def int_incr (x : Int) : Int := (x + 1 + 2 ^ 31) % 2 ^ 32 - 2 ^ 31

/-- The variables `pages`, `seglist` and `pagelist` of `xml_info`. -/
structure seg_lists where
  pages : Int
  seglist : List (List Char)
  pagelist : List Int
  deriving DecidableEq, Repr

/-- The loop `while(af_get_next_seg(af,segname,sizeof(segname),0,0,0)==0)` of `xml_info`.
The list holds the names the successive calls store in `segname`, up to the first call
that does not return 0; `opt_j` holds the `opt_j_count` entries of the allow-list. -/
def segment_loop (lib : Afflib) (opt_j : List (List Char)) :
    List (List Char) → seg_lists → seg_lists
  | [], st => st
  | segname :: rest, st =>
    if segname = [] then segment_loop lib opt_j rest st
    else if segname = lib.AF_DIRECTORY then segment_loop lib opt_j rest st
    else if strstr segname lib.AF_AES256_SUFFIX = true then segment_loop lib opt_j rest st
    else if opt_j.length > 0 ∧ in_opt_j_list opt_j segname = false then
      segment_loop lib opt_j rest st
    else
      let page_num := lib.af_segname_page_number segname
      if page_num ≥ 0 then
        segment_loop lib opt_j rest
          { st with pages := int_incr st.pages, pagelist := st.pagelist ++ [page_num] }
      else
        segment_loop lib opt_j rest { st with seglist := st.seglist ++ [segname] }

/-- The variables before the loop: `int pages = 0` and two empty vectors. -/
def seg_lists_init : seg_lists := { pages := 0, seglist := [], pagelist := [] }

/-- The lists `xml_info` builds from the enumerated names. -/
def xml_info_lists (lib : Afflib) (opt_j : List (List Char)) (names : List (List Char)) :
    seg_lists :=
  segment_loop lib opt_j names seg_lists_init

/-- What `printf` writes for the conversion `%d`. -/
def fmt_d (x : Int) : List Char :=
  if x < 0 then '-' :: Nat.toDigits 10 x.natAbs else Nat.toDigits 10 x.natAbs

/-- The line `printf("    <pages coding='base10'>%d</pages>\n",pages)`. -/
def pages_line (pages : Int) : List Char :=
  "    <pages coding='base10'>".toList ++ fmt_d pages ++ "</pages>\n".toList

/-- The lines `printf("<affinfo"); if(!opt_x) printf(" image_filename='%s'",infile);
printf(">\n");` of `xml_info`. -/
def affinfo_open (opt_x : Int) (infile : List Char) : List Char :=
  "<affinfo".toList ++
    (if opt_x = 0 then " image_filename='".toList ++ infile ++ [Char.ofNat 39] else []) ++
    ">\n".toList

/-- Reference: the names that survive the discard rules and the allow-list, in enumeration
order: non-empty, not the directory name, not containing the AES-256 suffix, and named in
the allow-list when that list is not empty. -/
def ref_survivors (lib : Afflib) (opt_j : List (List Char)) (names : List (List Char)) :
    List (List Char) :=
  names.filter (fun n => decide (n ≠ []) && decide (n ≠ lib.AF_DIRECTORY) &&
    !strstr n lib.AF_AES256_SUFFIX && (decide (opt_j = []) || decide (n ∈ opt_j)))

/-- Reference: the branch of the emission loop when the two tests on the name, the
display-as-quad convention and the "md5" suffix, are applied to the original segment name
and not to the sanitized tag name. -/
def ref_branch_original_name (lib : Afflib) (name : List Char) (arg : Nat)
    (data : List Byte) : Branch :=
  if data.length = 8 ∧
      (Nat.land (arg % 2 ^ 32) lib.AF_SEG_QUADWORD ≠ 0 ∨ lib.af_display_as_quad name = true) then
    Branch.Quad64
  else if data.length = 0 then Branch.RawArgument
  else if ends_md5 name = true then Branch.Hex
  else if okay_to_print lib.char_signed data = true then Branch.EscapedText
  else Branch.Base64

/-! ### The option loop of `main` -/

/-- What one call of `getopt(argc, argv, "xj:h?Vs")` returns before the options end: the
option character, with `optarg` for `j`; `other` is a character outside the option
string, for which `getopt` returns `?`. -/
inductive Opt where
  | j (optarg : List Char)
  | x
  | s
  | h
  | V
  | other
  deriving DecidableEq, Repr

/-- The globals `opt_x`, `opt_j` with its `opt_j_count` entries, and `opt_stats`. -/
structure Options where
  opt_x : Int
  opt_j : List (List Char)
  opt_stats : Int
  deriving DecidableEq, Repr

/-- The statements of `case 'x'`: `opt_x++; break;`. -/
def case_x (o : Options) : Options := { o with opt_x := o.opt_x + 1 }

/-- The `switch (ch)` of `main` for one option; `none` when the program exits (`usage()`
and `case 'V'` call `exit(0)`). The statements of `case 'j'` end without a `break`, so
control goes on into `case 'x'`. -/
def main_switch (o : Options) : Opt → Option Options
  | Opt.j optarg => some (case_x { o with opt_j := o.opt_j ++ [optarg] })
  | Opt.x => some (case_x o)
  | Opt.s => some { o with opt_stats := o.opt_stats + 1 }
  | Opt.h => none
  | Opt.other => none
  | Opt.V => none

/-- The loop `while ((ch = getopt(...)) != -1)` of `main` over the options of the command
line. -/
def main_options : List Opt → Options → Option Options
  | [], o => some o
  | ch :: rest, o =>
    match main_switch o ch with
    | none => none
    | some o1 => main_options rest o1

/-- The globals at program start: `opt_x = 0`, `opt_j = 0`, `opt_j_count = 0`,
`opt_stats = 0`. -/
def options_init : Options := { opt_x := 0, opt_j := [], opt_stats := 0 }

/-! ### The statistics loop with its page buffer -/

/-- The loop `for(s = data; s < data+pagesize; s+=sectorsize)` with the buffer `data` in
view: `buf` is the bytes of the buffer (the `af_page_size(af)` bytes of the `malloc`, of
which the first `pagesize` are the page just read), `s` is the offset of the pointer `s`
from `data`, the first argument bounds the iterations still to run. `is_blank` and
`af_is_badsector` read the `sectorsize` bytes at `s`, also where they lie past
`data+pagesize`: the buffer then still holds there what an earlier page left. The result is
`none` when the bound is used up with `s < data+pagesize` (a sector size of 0 never
advances `s`) and when the sector at `s` runs past the end of the buffer. -/
def sector_loop_buf (lib : Afflib) (buf : List Byte) (pagesize : Nat) :
    Nat → Nat → page_stat_block × Bool → Option (page_stat_block × Bool)
  | 0, s, st => if s < pagesize then none else some st
  | fuel + 1, s, (psb, allblank) =>
    if s < pagesize then
      if buf.length < s + lib.af_get_sectorsize then none
      else
        let chunk := (buf.drop s).take lib.af_get_sectorsize
        let psb1 := { psb with sectors := incr64 psb.sectors }
        if is_blank chunk = true then
          sector_loop_buf lib buf pagesize fuel (s + lib.af_get_sectorsize)
            ({ psb1 with zsectors := incr64 psb1.zsectors }, allblank)
        else if lib.af_is_badsector chunk = true then
          sector_loop_buf lib buf pagesize fuel (s + lib.af_get_sectorsize)
            ({ psb1 with badsectors := incr64 psb1.badsectors }, false)
        else
          sector_loop_buf lib buf pagesize fuel (s + lib.af_get_sectorsize) (psb1, false)
    else some (psb, allblank)

/-- The loop `for(it = pagelist.begin(); it != pagelist.end(); it++)` with the one buffer
`data` that every iteration reuses: `af_get_page` stores the bytes of the page at the start
of the buffer and leaves the rest of it as it was. The result is `none` when `af_get_page`
fails, when the page does not fit the buffer, and when the sector loop gives `none`. -/
def stats_loop_buf (lib : Afflib) :
    List Int → List Byte → page_stat_block → Option page_stat_block
  | [], _, psb => some psb
  | it :: rest, buf, psb =>
    match lib.af_get_page it with
    | none => none
    | some page =>
      if buf.length < page.length then none
      else
        match sector_loop_buf lib (page ++ buf.drop page.length) page.length page.length 0
            ({ psb with pages := incr64 psb.pages }, true) with
        | none => none
        | some (psb1, allblank) =>
          stats_loop_buf lib rest (page ++ buf.drop page.length)
            (if allblank = true then { psb1 with zpages := incr64 psb1.zpages } else psb1)

/-- The statistics of `xml_info` for a page list, `buf` being the bytes of the buffer when
`malloc` returns it. -/
def xml_info_stats_buf (lib : Afflib) (buf : List Byte) (pagelist : List Int) :
    Option page_stat_block :=
  stats_loop_buf lib pagelist buf psb_zero

/-- A library instance with 2-byte sectors and three pages: page 0 is six bytes 1, page 1 is
six zero bytes, page 2 is five zero bytes, so that its third sector is half a sector; no
sector is flagged bad. -/
def sample_partial_pages : Afflib :=
  { sample_lib with
    af_get_sectorsize := 2
    af_get_page := fun i =>
      if i = 0 then some [1, 1, 1, 1, 1, 1]
      else if i = 1 then some [0, 0, 0, 0, 0, 0]
      else if i = 2 then some [0, 0, 0, 0, 0]
      else none }

/-- A library instance whose display-as-quad convention accepts the one name "a_b". -/
def sample_underscore_lib : Afflib :=
  { sample_lib with af_display_as_quad := fun n => decide (n = "a_b".toList) }

/-! ## Theorems -/

/-- One iteration of the loop of `okay_to_print`, as a test on the byte. -/
theorem okay_to_print_cons (cs : Bool) (b : Byte) (rest : List Byte) :
    okay_to_print cs (b :: rest) =
      (decide (b.val = 10 ∨ b.val = 13 ∨ (32 ≤ b.val ∧ b.val ≤ 126)) &&
        okay_to_print cs rest) := by
  rw [okay_to_print]
  have hb := b.isLt
  have hv : char_val cs b = (b.val : Int) ∨
      (128 ≤ b.val ∧ char_val cs b = (b.val : Int) - 256) := by
    unfold char_val
    cases cs <;> by_cases h : 128 ≤ b.val <;> simp [h]
  generalize char_val cs b = v at hv ⊢
  by_cases hp : b.val = 10 ∨ b.val = 13 ∨ (32 ≤ b.val ∧ b.val ≤ 126)
  · simp only [hp, decide_True, Bool.true_and]
    split_ifs <;> first | rfl | (exfalso; omega)
  · simp only [hp, decide_False, Bool.false_and]
    split_ifs <;> first | rfl | (exfalso; omega)

/-- C1: `okay_to_print(b, len b)` is true exactly when every byte of `b` is 10, 13 or
in 32..126, for either signedness of `char` and including the empty sequence; so it is
false as soon as `b` contains one of the bytes 0, 9, 31, 127, 128, 255. -/
theorem okay_to_print_iff_all_printable (cs : Bool) (b : List Byte) :
    (okay_to_print cs b = true ↔
      ∀ x ∈ b, x.val = 10 ∨ x.val = 13 ∨ (32 ≤ x.val ∧ x.val ≤ 126)) ∧
    (∀ x ∈ ([0, 9, 31, 127, 128, 255] : List Byte), x ∈ b → okay_to_print cs b = false) := by
  have key : ∀ l : List Byte, okay_to_print cs l = true ↔
      ∀ x ∈ l, x.val = 10 ∨ x.val = 13 ∨ (32 ≤ x.val ∧ x.val ≤ 126) := by
    intro l
    induction l with
    | nil => simp [okay_to_print]
    | cons a t ih =>
      rw [okay_to_print_cons, Bool.and_eq_true, ih]
      simp
  refine ⟨key b, ?_⟩
  intro x hx hmem
  have hbad : ¬ (x.val = 10 ∨ x.val = 13 ∨ (32 ≤ x.val ∧ x.val ≤ 126)) := by
    simp only [List.mem_cons, List.mem_singleton, List.not_mem_nil, or_false] at hx
    rcases hx with h | h | h | h | h | h <;> subst h <;> decide
  cases hres : okay_to_print cs b with
  | false => rfl
  | true => exact absurd ((key b).1 hres x hmem) hbad

/-- C2: `is_blank(b, len b)` is true exactly when every byte of `b` is zero, for every
length of `b`, zero and one included. -/
theorem is_blank_iff_all_zero (b : List Byte) :
    is_blank b = true ↔ ∀ x ∈ b, x = 0 := by
  induction b with
  | nil => simp [is_blank]
  | cons a t ih =>
    by_cases ha : a = 0
    · simp [is_blank, ha, ih]
    · simp [is_blank, ha]

/-- The iteration when the quadword test succeeds. -/
theorem xml_info_segment_quad (lib : Afflib) (name : List Char) (arg : Nat) (data : List Byte)
    (hq : data.length = 8 ∧ (Nat.land (arg % 2 ^ 32) lib.AF_SEG_QUADWORD ≠ 0 ∨
      lib.af_display_as_quad (sanitize name) = true)) :
    xml_info_segment lib name arg data =
      { branch := Branch.Quad64
        head := "    <".toList ++ sanitize name ++ " coding='base10'>".toList
        body := some (fmt_I64d (lib.af_decode_q data))
        tail := "</".toList ++ sanitize name ++ ">\n".toList } := by
  unfold xml_info_segment
  simp only [if_pos hq]

/-- The iteration when the quadword test fails and the payload is empty. -/
theorem xml_info_segment_raw (lib : Afflib) (name : List Char) (arg : Nat) (data : List Byte)
    (hq : ¬ (data.length = 8 ∧ (Nat.land (arg % 2 ^ 32) lib.AF_SEG_QUADWORD ≠ 0 ∨
      lib.af_display_as_quad (sanitize name) = true)))
    (h0 : data.length = 0) :
    xml_info_segment lib name arg data =
      { branch := Branch.RawArgument
        head := "    <".toList ++ sanitize name ++ " coding='base10'>".toList
        body := some (fmt_PRIu32 arg)
        tail := "</".toList ++ sanitize name ++ ">\n".toList } := by
  unfold xml_info_segment
  simp only [if_neg hq, if_pos h0]

/-- The iteration when the first two tests fail and the tag name ends in "md5". -/
theorem xml_info_segment_hex (lib : Afflib) (name : List Char) (arg : Nat) (data : List Byte)
    (hq : ¬ (data.length = 8 ∧ (Nat.land (arg % 2 ^ 32) lib.AF_SEG_QUADWORD ≠ 0 ∨
      lib.af_display_as_quad (sanitize name) = true)))
    (h0 : ¬ data.length = 0) (hm : ends_md5 (sanitize name) = true) :
    xml_info_segment lib name arg data =
      { branch := Branch.Hex
        head := "    <".toList ++ sanitize name ++ " coding='base16'>".toList
        body := some (af_hexbuf 40 data)
        tail := "</".toList ++ sanitize name ++ ">\n".toList } := by
  unfold xml_info_segment
  simp only [if_neg hq, if_neg h0, if_pos hm]

/-- The iteration when the first three tests fail and the payload is printable. -/
theorem xml_info_segment_text (lib : Afflib) (name : List Char) (arg : Nat) (data : List Byte)
    (hq : ¬ (data.length = 8 ∧ (Nat.land (arg % 2 ^ 32) lib.AF_SEG_QUADWORD ≠ 0 ∨
      lib.af_display_as_quad (sanitize name) = true)))
    (h0 : ¬ data.length = 0) (hm : ends_md5 (sanitize name) = false)
    (hp : okay_to_print lib.char_signed data = true) :
    xml_info_segment lib name arg data =
      { branch := Branch.EscapedText
        head := "    <".toList ++ sanitize name ++ ">".toList
        body := some (escape_text data)
        tail := "</".toList ++ sanitize name ++ ">\n".toList } := by
  unfold xml_info_segment
  simp only [if_neg hq, if_neg h0, hm, hp, if_true, Bool.false_eq_true, if_false]

/-- The iteration when every test fails. -/
theorem xml_info_segment_b64 (lib : Afflib) (name : List Char) (arg : Nat) (data : List Byte)
    (hq : ¬ (data.length = 8 ∧ (Nat.land (arg % 2 ^ 32) lib.AF_SEG_QUADWORD ≠ 0 ∨
      lib.af_display_as_quad (sanitize name) = true)))
    (h0 : ¬ data.length = 0) (hm : ends_md5 (sanitize name) = false)
    (hp : okay_to_print lib.char_signed data = false) :
    xml_info_segment lib name arg data =
      { branch := Branch.Base64
        head := "    <".toList ++ sanitize name ++ " coding='base64'>".toList
        body := b64_ntop data (data.length * 2 + 2)
        tail := "</".toList ++ sanitize name ++ ">\n".toList } := by
  unfold xml_info_segment
  simp only [if_neg hq, if_neg h0, hm, hp, Bool.false_eq_true, if_false]

/-- Every iteration of the emission loop ends in exactly one of the five branches Quad64,
RawArgument, Hex, EscapedText, Base64 (never in the second zero-length check), each branch
being taken exactly under its guard with earlier guards winning; what it writes before and
after the element content is the opening tag and the closing tag of the sanitized name; and
the Quad64 branch is taken only for a payload of exactly 8 bytes. -/
theorem xml_info_segment_one_branch (lib : Afflib) (name : List Char) (arg : Nat)
    (data : List Byte) :
    ((xml_info_segment lib name arg data).branch ∈
      [Branch.Quad64, Branch.RawArgument, Branch.Hex, Branch.EscapedText, Branch.Base64]) ∧
    ((xml_info_segment lib name arg data).branch = Branch.Quad64 → data.length = 8) ∧
    (∃ attr ∈ ["".toList, " coding='base10'".toList, " coding='base16'".toList,
        " coding='base64'".toList],
      (xml_info_segment lib name arg data).head =
        "    <".toList ++ sanitize name ++ attr ++ ">".toList ∧
      (xml_info_segment lib name arg data).tail =
        "</".toList ++ sanitize name ++ ">\n".toList) ∧
    ((xml_info_segment lib name arg data).branch = Branch.Quad64 ↔
      (data.length = 8 ∧ (Nat.land (arg % 2 ^ 32) lib.AF_SEG_QUADWORD ≠ 0 ∨
        lib.af_display_as_quad (sanitize name) = true))) ∧
    ((xml_info_segment lib name arg data).branch = Branch.RawArgument ↔ data.length = 0) ∧
    ((xml_info_segment lib name arg data).branch = Branch.Hex ↔
      (¬ (data.length = 8 ∧ (Nat.land (arg % 2 ^ 32) lib.AF_SEG_QUADWORD ≠ 0 ∨
        lib.af_display_as_quad (sanitize name) = true)) ∧ data.length ≠ 0 ∧
        ends_md5 (sanitize name) = true)) ∧
    ((xml_info_segment lib name arg data).branch = Branch.EscapedText ↔
      (¬ (data.length = 8 ∧ (Nat.land (arg % 2 ^ 32) lib.AF_SEG_QUADWORD ≠ 0 ∨
        lib.af_display_as_quad (sanitize name) = true)) ∧ data.length ≠ 0 ∧
        ends_md5 (sanitize name) = false ∧ okay_to_print lib.char_signed data = true)) ∧
    ((xml_info_segment lib name arg data).branch = Branch.Base64 ↔
      (¬ (data.length = 8 ∧ (Nat.land (arg % 2 ^ 32) lib.AF_SEG_QUADWORD ≠ 0 ∨
        lib.af_display_as_quad (sanitize name) = true)) ∧ data.length ≠ 0 ∧
        ends_md5 (sanitize name) = false ∧ okay_to_print lib.char_signed data = false)) := by
  have e10 : " coding='base10'>".toList = " coding='base10'".toList ++ ">".toList := by decide
  have e16 : " coding='base16'>".toList = " coding='base16'".toList ++ ">".toList := by decide
  have e64 : " coding='base64'>".toList = " coding='base64'".toList ++ ">".toList := by decide
  by_cases hq : data.length = 8 ∧ (Nat.land (arg % 2 ^ 32) lib.AF_SEG_QUADWORD ≠ 0 ∨
      lib.af_display_as_quad (sanitize name) = true)
  · have h0 : data.length ≠ 0 := by omega
    have hx := xml_info_segment_quad lib name arg data hq
    rw [hx]
    refine ⟨by simp, fun _ => hq.1, ⟨" coding='base10'".toList, by decide, ?_, rfl⟩,
      ⟨fun _ => hq, fun _ => rfl⟩, ⟨fun h => Branch.noConfusion h, fun h => absurd h h0⟩,
      ⟨fun h => Branch.noConfusion h, fun h => absurd hq h.1⟩,
      ⟨fun h => Branch.noConfusion h, fun h => absurd hq h.1⟩,
      ⟨fun h => Branch.noConfusion h, fun h => absurd hq h.1⟩⟩
    show _ ++ _ ++ " coding='base10'>".toList = _
    rw [e10]; simp only [List.append_assoc]
  · by_cases h0 : data.length = 0
    · have hx := xml_info_segment_raw lib name arg data hq h0
      rw [hx]
      refine ⟨by simp, fun h => Branch.noConfusion h,
        ⟨" coding='base10'".toList, by decide, ?_, rfl⟩,
        ⟨fun h => Branch.noConfusion h, fun h => absurd h hq⟩, ⟨fun _ => h0, fun _ => rfl⟩,
        ⟨fun h => Branch.noConfusion h, fun h => absurd h0 h.2.1⟩,
        ⟨fun h => Branch.noConfusion h, fun h => absurd h0 h.2.1⟩,
        ⟨fun h => Branch.noConfusion h, fun h => absurd h0 h.2.1⟩⟩
      show _ ++ _ ++ " coding='base10'>".toList = _
      rw [e10]; simp only [List.append_assoc]
    · by_cases hm : ends_md5 (sanitize name) = true
      · have hx := xml_info_segment_hex lib name arg data hq h0 hm
        rw [hx]
        refine ⟨by simp, fun h => Branch.noConfusion h,
          ⟨" coding='base16'".toList, by decide, ?_, rfl⟩,
          ⟨fun h => Branch.noConfusion h, fun h => absurd h hq⟩,
          ⟨fun h => Branch.noConfusion h, fun h => absurd h h0⟩,
          ⟨fun _ => ⟨hq, h0, hm⟩, fun _ => rfl⟩,
          ⟨fun h => Branch.noConfusion h, fun h => ?_⟩,
          ⟨fun h => Branch.noConfusion h, fun h => ?_⟩⟩
        · show _ ++ _ ++ " coding='base16'>".toList = _
          rw [e16]; simp only [List.append_assoc]
        · rw [hm] at h; exact Bool.noConfusion h.2.2.1
        · rw [hm] at h; exact Bool.noConfusion h.2.2.1
      · have hm' : ends_md5 (sanitize name) = false := by simpa using hm
        by_cases hp : okay_to_print lib.char_signed data = true
        · have hx := xml_info_segment_text lib name arg data hq h0 hm' hp
          rw [hx]
          refine ⟨by simp, fun h => Branch.noConfusion h, ⟨"".toList, by decide, ?_, rfl⟩,
            ⟨fun h => Branch.noConfusion h, fun h => absurd h hq⟩,
            ⟨fun h => Branch.noConfusion h, fun h => absurd h h0⟩,
            ⟨fun h => Branch.noConfusion h, fun h => absurd h.2.2 hm⟩,
            ⟨fun _ => ⟨hq, h0, hm', hp⟩, fun _ => rfl⟩,
            ⟨fun h => Branch.noConfusion h, fun h => ?_⟩⟩
          · show _ ++ _ ++ ">".toList = _
            simp
          · rw [hp] at h; exact Bool.noConfusion h.2.2.2
        · have hp' : okay_to_print lib.char_signed data = false := by simpa using hp
          have hx := xml_info_segment_b64 lib name arg data hq h0 hm' hp'
          rw [hx]
          refine ⟨by simp, fun h => Branch.noConfusion h,
            ⟨" coding='base64'".toList, by decide, ?_, rfl⟩,
            ⟨fun h => Branch.noConfusion h, fun h => absurd h hq⟩,
            ⟨fun h => Branch.noConfusion h, fun h => absurd h h0⟩,
            ⟨fun h => Branch.noConfusion h, fun h => absurd h.2.2 hm⟩,
            ⟨fun h => Branch.noConfusion h, fun h => absurd h.2.2.2 hp⟩,
            ⟨fun _ => ⟨hq, h0, hm', hp'⟩, fun _ => rfl⟩⟩
          show _ ++ _ ++ " coding='base64'>".toList = _
          rw [e64]; simp only [List.append_assoc]

/-- C4: a segment whose payload has length 0 is emitted by the RawArgument branch, whatever
its name, argument and flags: the text is the element of the sanitized name with
`coding='base10'` and the unsigned decimal digits of the 32-bit argument. -/
theorem zero_length_is_raw_argument (lib : Afflib) (name : List Char) (arg : Nat)
    (data : List Byte) (h0 : data.length = 0) :
    (xml_info_segment lib name arg data).branch = Branch.RawArgument ∧
    (xml_info_segment lib name arg data).text =
      some ("    <".toList ++ sanitize name ++ " coding='base10'>".toList ++
        Nat.toDigits 10 (arg % 2 ^ 32) ++ ("</".toList ++ sanitize name ++ ">\n".toList)) := by
  have hq : ¬ (data.length = 8 ∧ (Nat.land (arg % 2 ^ 32) lib.AF_SEG_QUADWORD ≠ 0 ∨
      lib.af_display_as_quad (sanitize name) = true)) := by
    rintro ⟨h8, -⟩
    omega
  unfold SegOutput.text xml_info_segment
  simp only [if_neg hq, if_pos h0, fmt_PRIu32, Option.map_some', and_self]

/-- Scenario C at a name ending in "md5" with the quadword flag set: an empty payload with
argument 4096 is written as the decimal 4096. -/
theorem zero_length_is_raw_argument_witness :
    ([] : List Byte).length = 0 ∧
    (xml_info_segment sample_lib "image_md5".toList 4098 []).branch = Branch.RawArgument ∧
    (xml_info_segment sample_lib "image md5".toList 4096 []).text =
      some "    <image_md5 coding='base10'>4096</image_md5>\n".toList :=
  ⟨rfl, (zero_length_is_raw_argument sample_lib "image_md5".toList 4098 [] rfl).1,
    (zero_length_is_raw_argument sample_lib "image md5".toList 4096 [] rfl).2.trans
      (by decide)⟩

/-- C5, as the claim states it, fails: the segment named "md5" with the one-byte payload
`ab` is neither Quad64 nor RawArgument and is Hex-encoded, although its payload is shorter
than 3 bytes. -/
theorem hex_needs_no_payload_length :
    (xml_info_segment sample_lib "md5".toList 0 [171]).branch ≠ Branch.Quad64 ∧
    (xml_info_segment sample_lib "md5".toList 0 [171]).branch ≠ Branch.RawArgument ∧
    ¬ ((xml_info_segment sample_lib "md5".toList 0 [171]).branch = Branch.Hex ↔
        (3 ≤ ([171] : List Byte).length ∧
          (sanitize "md5".toList).drop ((sanitize "md5".toList).length - 3) = "md5".toList)) ∧
    (xml_info_segment sample_lib "md5".toList 0 [171]).text =
      some "    <md5 coding='base16'>ab</md5>\n".toList := by
  decide

/-- C5, amended: for a segment that is neither Quad64 nor RawArgument, the Hex encoding is
chosen exactly when the sanitized tag name has at least three characters and its last three
are "md5"; the length of the payload plays no part. -/
theorem hex_iff_tag_ends_md5 (lib : Afflib) (name : List Char) (arg : Nat)
    (data : List Byte)
    (hq : (xml_info_segment lib name arg data).branch ≠ Branch.Quad64)
    (hr : (xml_info_segment lib name arg data).branch ≠ Branch.RawArgument) :
    (xml_info_segment lib name arg data).branch = Branch.Hex ↔
      ((sanitize name).length ≥ 3 ∧
        (sanitize name).drop ((sanitize name).length - 3) = "md5".toList) := by
  have hmd : ends_md5 (sanitize name) = true ↔ ((sanitize name).length ≥ 3 ∧
      (sanitize name).drop ((sanitize name).length - 3) = "md5".toList) := by
    simp only [ends_md5, Bool.and_eq_true, decide_eq_true_eq]
  rw [← hmd]
  by_cases hQ : data.length = 8 ∧ (Nat.land (arg % 2 ^ 32) lib.AF_SEG_QUADWORD ≠ 0 ∨
      lib.af_display_as_quad (sanitize name) = true)
  · rw [xml_info_segment_quad lib name arg data hQ] at hq
    exact absurd rfl hq
  · by_cases h0 : data.length = 0
    · rw [xml_info_segment_raw lib name arg data hQ h0] at hr
      exact absurd rfl hr
    · by_cases hm : ends_md5 (sanitize name) = true
      · rw [xml_info_segment_hex lib name arg data hQ h0 hm]
        exact ⟨fun _ => hm, fun _ => rfl⟩
      · have hm' : ends_md5 (sanitize name) = false := by simpa using hm
        by_cases hp : okay_to_print lib.char_signed data = true
        · rw [xml_info_segment_text lib name arg data hQ h0 hm' hp]
          exact ⟨fun h => Branch.noConfusion h, fun h => absurd h hm⟩
        · have hp' : okay_to_print lib.char_signed data = false := by simpa using hp
          rw [xml_info_segment_b64 lib name arg data hQ h0 hm' hp']
          exact ⟨fun h => Branch.noConfusion h, fun h => absurd h hm⟩

/-- The amended C5 at the segment "md5" with a one-byte payload: it is Hex-encoded. -/
theorem hex_iff_tag_ends_md5_witness :
    (xml_info_segment sample_lib "md5".toList 0 [171]).branch ≠ Branch.Quad64 ∧
    (xml_info_segment sample_lib "md5".toList 0 [171]).branch ≠ Branch.RawArgument ∧
    (xml_info_segment sample_lib "md5".toList 0 [171]).branch = Branch.Hex :=
  ⟨by decide, by decide,
    (hex_iff_tag_ends_md5 sample_lib "md5".toList 0 [171] (by decide) (by decide)).2
      (by decide)⟩

/-- The length of what `af_hexbuf` leaves in a destination of `dst_len` bytes. -/
theorem af_hexbuf_length (dst_len : Nat) (data : List Byte) :
    (af_hexbuf dst_len data).length = 2 * min data.length ((dst_len - 2) / 2) := by
  induction data generalizing dst_len with
  | nil => simp [af_hexbuf]
  | cons b rest ih =>
    by_cases h : dst_len > 3
    · simp only [af_hexbuf, if_pos h, List.length_cons, ih]
      omega
    · simp only [af_hexbuf, if_neg h, List.length_nil, List.length_cons]
      omega

/-- In the Hex branch the body never has more than 38 characters. -/
theorem hex_body_length (data : List Byte) :
    (af_hexbuf 40 data).length = 2 * min data.length 19 := by
  rw [af_hexbuf_length]

/-- C6: the segment "image_md5" with the 20-byte payload 00 01 .. 13 takes the Hex branch
and its body is the 38 hexadecimal characters of the first 19 bytes only, not the 40
characters of the whole payload: the text is cut to what fits in the 40 bytes of
`hex_buf`. -/
theorem hex_body_cut_at_19_bytes :
    (xml_info_segment sample_lib "image_md5".toList 0
        [0, 1, 2, 3, 4, 5, 6, 7, 8, 9, 10, 11, 12, 13, 14, 15, 16, 17, 18, 19]).branch =
      Branch.Hex ∧
    (xml_info_segment sample_lib "image_md5".toList 0
        [0, 1, 2, 3, 4, 5, 6, 7, 8, 9, 10, 11, 12, 13, 14, 15, 16, 17, 18, 19]).body =
      some "000102030405060708090a0b0c0d0e0f101112".toList ∧
    "000102030405060708090a0b0c0d0e0f101112".toList.length ≠ 2 * 20 := by
  decide

/-- The length of the base64 text of `n` bytes is `4 * ceil(n / 3)`. -/
theorem b64_text_length (data : List Byte) :
    (b64_text data).length = 4 * ((data.length + 2) / 3) := by
  induction data using b64_text.induct with
  | case1 => rfl
  | case2 a => simp [b64_text]
  | case3 a b => simp [b64_text]
  | case4 a b c rest ih =>
    simp only [b64_text, List.length_cons, ih]
    omega

/-- The call `b64_ntop(data, datalen, b64buf, datalen*2+2)` succeeds exactly when the payload
has more than one byte or none. -/
theorem b64_ntop_b64size (data : List Byte) :
    (data.length ≠ 1 → b64_ntop data (data.length * 2 + 2) = some (b64_text data)) ∧
    (data.length = 1 → b64_ntop data (data.length * 2 + 2) = none) := by
  have hl := b64_text_length data
  unfold b64_ntop
  constructor
  · intro h
    rw [if_pos]
    omega
  · intro h
    rw [if_neg]
    omega

/-- C7: the segment "x" with the one-byte payload 00 reaches the Base64 branch, where the
buffer of `datalen*2+2 = 4` bytes cannot hold the four characters `AA==` and their
terminating NUL: `b64_ntop` returns -1 and the body written is not the base64 text. -/
theorem base64_one_byte_does_not_fit :
    (xml_info_segment sample_lib "x".toList 0 [0]).branch = Branch.Base64 ∧
    (xml_info_segment sample_lib "x".toList 0 [0]).body = none ∧
    b64_text [0] = "AA==".toList ∧
    ¬ ((b64_text [0]).length + 1 ≤ ([0] : List Byte).length * 2 + 2) := by
  decide

/-- C8: the payload `<` is printable and is written as `&gt;`, the payload `>` as `&lt;`:
the two entities are exchanged. -/
theorem escape_exchanges_lt_gt :
    (xml_info_segment sample_lib "x".toList 0 [60]).branch = Branch.EscapedText ∧
    (xml_info_segment sample_lib "x".toList 0 [60]).text = some "    <x>&gt;</x>\n".toList ∧
    (xml_info_segment sample_lib "x".toList 0 [62]).branch = Branch.EscapedText ∧
    (xml_info_segment sample_lib "x".toList 0 [62]).text = some "    <x>&lt;</x>\n".toList ∧
    Char.ofNat 60 = '<' ∧ Char.ofNat 62 = '>' := by
  decide

/-- A payload byte other than `<`, `>`, `&`, apostrophe and double quote is written as
it is. -/
theorem escape_text_plain (data : List Byte)
    (h : ∀ b ∈ data, b.val ≠ 60 ∧ b.val ≠ 62 ∧ b.val ≠ 38 ∧ b.val ≠ 39 ∧ b.val ≠ 34) :
    escape_text data = data.map (fun b => Char.ofNat b.val) := by
  induction data with
  | nil => rfl
  | cons a t ih =>
    have ha := h a (List.mem_cons_self a t)
    have ht := ih (fun b hb => h b (List.mem_cons_of_mem a hb))
    unfold escape_text at ht ⊢
    simp only [List.flatMap_cons, List.map_cons, ht]
    simp [escape_byte, ha.1, ha.2.1, ha.2.2.1, ha.2.2.2.1, ha.2.2.2.2]

/-- C9, amended: an 8-byte payload that passes `okay_to_print`, in a segment whose argument
lacks the quadword bit, whose sanitized tag name `af_display_as_quad` rejects and whose tag
name does not end in "md5", is emitted by the EscapedText branch and not as Quad64: the
opening tag carries no coding attribute, and a payload without `<`, `>`, `&`, apostrophe
and double quote is the element content byte for byte. -/
theorem printable_8_bytes_is_escaped_text (lib : Afflib) (name : List Char) (arg : Nat)
    (data : List Byte) (h8 : data.length = 8)
    (hp : okay_to_print lib.char_signed data = true)
    (hflag : Nat.land (arg % 2 ^ 32) lib.AF_SEG_QUADWORD = 0)
    (hname : lib.af_display_as_quad (sanitize name) = false)
    (hmd5 : ends_md5 (sanitize name) = false) :
    (xml_info_segment lib name arg data).branch = Branch.EscapedText ∧
    (xml_info_segment lib name arg data).head = "    <".toList ++ sanitize name ++ ">".toList ∧
    (xml_info_segment lib name arg data).tail = "</".toList ++ sanitize name ++ ">\n".toList ∧
    (xml_info_segment lib name arg data).body = some (escape_text data) ∧
    ((∀ b ∈ data, b.val ≠ 60 ∧ b.val ≠ 62 ∧ b.val ≠ 38 ∧ b.val ≠ 39 ∧ b.val ≠ 34) →
      (xml_info_segment lib name arg data).text =
        some ("    <".toList ++ sanitize name ++ ">".toList ++
          data.map (fun b => Char.ofNat b.val) ++
          ("</".toList ++ sanitize name ++ ">\n".toList))) := by
  have hq : ¬ (data.length = 8 ∧ (Nat.land (arg % 2 ^ 32) lib.AF_SEG_QUADWORD ≠ 0 ∨
      lib.af_display_as_quad (sanitize name) = true)) := by
    rintro ⟨-, h | h⟩
    · exact h hflag
    · rw [hname] at h; exact Bool.noConfusion h
  have h0 : ¬ data.length = 0 := by omega
  rw [xml_info_segment_text lib name arg data hq h0 hmd5 hp]
  refine ⟨rfl, rfl, rfl, rfl, ?_⟩
  intro hplain
  simp only [SegOutput.text, Option.map_some', escape_text_plain data hplain]

set_option maxRecDepth 4000 in
/-- Scenario A: the segment `case_number` with the payload "2024-001" and no quadword hint
is written as `<case_number>2024-001</case_number>`. -/
theorem printable_8_bytes_is_escaped_text_witness :
    (xml_info_segment sample_lib "case_number".toList 0
        [50, 48, 50, 52, 45, 48, 48, 49]).branch = Branch.EscapedText ∧
    (xml_info_segment sample_lib "case_number".toList 0
        [50, 48, 50, 52, 45, 48, 48, 49]).text =
      some "    <case_number>2024-001</case_number>\n".toList :=
  ⟨(printable_8_bytes_is_escaped_text sample_lib "case_number".toList 0
      [50, 48, 50, 52, 45, 48, 48, 49] (by decide) (by decide) (by decide) (by decide)
      (by decide)).1,
    ((printable_8_bytes_is_escaped_text sample_lib "case_number".toList 0
      [50, 48, 50, 52, 45, 48, 48, 49] (by decide) (by decide) (by decide) (by decide)
      (by decide)).2.2.2.2 (by decide)).trans (by decide)⟩

/-- Counting up `k` times from a value below `2^64` adds `k` modulo `2^64`. -/
theorem incr64_iterate (k x : Nat) (hx : x < 2 ^ 64) :
    incr64^[k] x = (x + k) % 2 ^ 64 := by
  induction k generalizing x with
  | zero =>
    rw [Function.iterate_zero, id, Nat.add_zero]
    exact (Nat.mod_eq_of_lt hx).symm
  | succ k ih =>
    rw [Function.iterate_succ_apply, ih (incr64 x) (Nat.mod_lt _ (by norm_num))]
    unfold incr64
    omega

/-- The sector chunks of a page that holds at least one sector: the first `S` bytes, then
the chunks of what follows. -/
theorem ref_sector_chunks_step (S : Nat) (rest : List Byte) (hS : 1 ≤ S)
    (hlen : S ≤ rest.length) :
    ref_sector_chunks S rest = rest.take S :: ref_sector_chunks S (rest.drop S) := by
  have hdiv : rest.length / S = (rest.length - S) / S + 1 := by
    have h := Nat.add_div_right (rest.length - S) (show 0 < S by omega)
    rw [Nat.sub_add_cancel hlen] at h
    exact h
  unfold ref_sector_chunks
  rw [hdiv, List.length_drop, List.range_succ_eq_map, List.map_cons, List.map_map]
  congr 1
  · simp
  · apply List.map_congr_left
    intro k _
    simp only [Function.comp_apply, List.drop_drop, Nat.succ_eq_add_one]
    congr 2
    rw [Nat.add_mul, Nat.one_mul, Nat.add_comm]

/-- The sector loop over a page whose length is a multiple of a positive sector size runs to
its end and counts as the reference does. -/
theorem sector_loop_spec (lib : Afflib) (hS : 1 ≤ lib.af_get_sectorsize) :
    ∀ (fuel : Nat) (rest : List Byte) (psb : page_stat_block) (ab : Bool),
      lib.af_get_sectorsize ∣ rest.length → rest.length ≤ fuel * lib.af_get_sectorsize →
      sector_loop lib fuel rest (psb, ab) = some
        ({ zsectors :=
              incr64^[(ref_sector_chunks lib.af_get_sectorsize rest).countP is_blank]
                psb.zsectors
           badsectors :=
              incr64^[(ref_sector_chunks lib.af_get_sectorsize rest).countP
                (fun c => !is_blank c && lib.af_is_badsector c)] psb.badsectors
           zpages := psb.zpages
           pages := psb.pages
           sectors := incr64^[rest.length / lib.af_get_sectorsize] psb.sectors },
          ab && (ref_sector_chunks lib.af_get_sectorsize rest).all is_blank) := by
  intro fuel
  induction fuel with
  | zero =>
    intro rest psb ab _ hle
    have hnil : rest = [] := List.length_eq_zero.mp (by omega)
    subst hnil
    simp [sector_loop, ref_sector_chunks]
  | succ n ih =>
    intro rest psb ab hdvd hle
    cases rest with
    | nil => simp [sector_loop, ref_sector_chunks]
    | cons b bs =>
      have hlen : lib.af_get_sectorsize ≤ (b :: bs).length :=
        Nat.le_of_dvd (by simp) hdvd
      have hdvd' : lib.af_get_sectorsize ∣ ((b :: bs).drop lib.af_get_sectorsize).length := by
        rw [List.length_drop]
        exact Nat.dvd_sub' hdvd (dvd_refl _)
      have hle' : ((b :: bs).drop lib.af_get_sectorsize).length ≤
          n * lib.af_get_sectorsize := by
        rw [List.length_drop]
        rw [Nat.add_mul, Nat.one_mul] at hle
        omega
      have hdiv : (b :: bs).length / lib.af_get_sectorsize =
          ((b :: bs).drop lib.af_get_sectorsize).length / lib.af_get_sectorsize + 1 := by
        rw [List.length_drop]
        have h := Nat.add_div_right ((b :: bs).length - lib.af_get_sectorsize)
          (show 0 < lib.af_get_sectorsize by omega)
        rw [Nat.sub_add_cancel hlen] at h
        exact h
      rw [ref_sector_chunks_step _ _ hS hlen, hdiv]
      simp only [sector_loop, if_neg (Nat.not_lt.mpr hlen)]
      by_cases hb : is_blank ((b :: bs).take lib.af_get_sectorsize) = true
      · simp only [if_pos hb]
        rw [ih _ _ _ hdvd' hle']
        simp [hb, List.countP_cons, Function.iterate_succ_apply]
      · have hb' : is_blank ((b :: bs).take lib.af_get_sectorsize) = false := by
          simpa using hb
        simp only [if_neg hb]
        by_cases hbad : lib.af_is_badsector ((b :: bs).take lib.af_get_sectorsize) = true
        · simp only [if_pos hbad]
          rw [ih _ _ _ hdvd' hle']
          simp [hb', hbad, List.countP_cons, Function.iterate_succ_apply]
        · have hbad' : lib.af_is_badsector ((b :: bs).take lib.af_get_sectorsize) = false := by
            simpa using hbad
          simp only [if_neg hbad]
          rw [ih _ _ _ hdvd' hle']
          simp [hb', hbad', List.countP_cons, Function.iterate_succ_apply]

/-- Counting up in two runs does not depend on the order of the runs. -/
theorem incr64_iterate_comm (a b x : Nat) :
    incr64^[a] (incr64^[b] x) = incr64^[b] (incr64^[a] x) := by
  rw [← Function.iterate_add_apply, ← Function.iterate_add_apply, Nat.add_comm]

/-- The page loop over pages that are all retrieved and whose lengths are multiples of a
positive sector size runs to its end and counts as the reference does. -/
theorem stats_loop_spec (lib : Afflib) (hS : 1 ≤ lib.af_get_sectorsize) :
    ∀ (pagelist : List Int) (psb : page_stat_block),
      (∀ it ∈ pagelist, ∃ data, lib.af_get_page it = some data ∧
        lib.af_get_sectorsize ∣ data.length) →
      stats_loop lib pagelist psb = some
        { zsectors := incr64^[(ref_tally lib pagelist).zsectors] psb.zsectors
          badsectors := incr64^[(ref_tally lib pagelist).badsectors] psb.badsectors
          zpages := incr64^[(ref_tally lib pagelist).zpages] psb.zpages
          pages := incr64^[(ref_tally lib pagelist).pages] psb.pages
          sectors := incr64^[(ref_tally lib pagelist).sectors] psb.sectors } := by
  intro pagelist
  induction pagelist with
  | nil =>
    intro psb _
    simp [stats_loop, ref_tally]
  | cons it rest ih =>
    intro psb hpages
    obtain ⟨data, hget, hdvd⟩ := hpages it (List.mem_cons_self it rest)
    have hrest : ∀ i ∈ rest, ∃ d, lib.af_get_page i = some d ∧
        lib.af_get_sectorsize ∣ d.length :=
      fun i hi => hpages i (List.mem_cons_of_mem it hi)
    have hfuel : data.length ≤ data.length * lib.af_get_sectorsize :=
      Nat.le_mul_of_pos_right _ (by omega)
    have hpage : ref_page lib it = data := by simp [ref_page, hget]
    simp only [stats_loop, hget, sector_loop_spec lib hS data.length data _ true hdvd hfuel]
    by_cases hall : (ref_sector_chunks lib.af_get_sectorsize data).all is_blank = true
    · simp only [Bool.true_and, hall, if_true]
      rw [ih _ hrest]
      simp only [ref_tally, List.map_cons, List.flatMap_cons, List.countP_append,
        List.countP_cons, List.sum_cons, List.length_cons, hpage, hall, if_true,
        Function.iterate_add_apply, Function.iterate_succ_apply, Function.iterate_zero, id]
      refine congrArg some ?_
      congr 1 <;> first | rfl | exact incr64_iterate_comm _ _ _
    · have hall' : (ref_sector_chunks lib.af_get_sectorsize data).all is_blank = false := by
        simpa using hall
      simp only [Bool.true_and, hall', Bool.false_eq_true, if_false]
      rw [ih _ hrest]
      simp only [ref_tally, List.map_cons, List.flatMap_cons, List.countP_append,
        List.countP_cons, List.sum_cons, List.length_cons, hpage, hall', Bool.false_eq_true,
        if_false, Nat.add_zero,
        Function.iterate_add_apply, Function.iterate_succ_apply, Function.iterate_zero, id]
      refine congrArg some ?_
      congr 1 <;> first | rfl | exact incr64_iterate_comm _ _ _

/-- In the reference tally no counter of sectors exceeds the number of sectors and the
blank pages do not exceed the pages. -/
theorem ref_tally_bounds (lib : Afflib) (pagelist : List Int) :
    (ref_tally lib pagelist).zsectors ≤ (ref_tally lib pagelist).sectors ∧
    (ref_tally lib pagelist).badsectors ≤ (ref_tally lib pagelist).sectors ∧
    (ref_tally lib pagelist).zpages ≤ (ref_tally lib pagelist).pages := by
  induction pagelist with
  | nil => simp [ref_tally]
  | cons it rest ih =>
    obtain ⟨h1, h2, h3⟩ := ih
    have hlen : (ref_sector_chunks lib.af_get_sectorsize (ref_page lib it)).length =
        (ref_page lib it).length / lib.af_get_sectorsize := by
      simp [ref_sector_chunks]
    have hz := List.countP_le_length is_blank
      (l := ref_sector_chunks lib.af_get_sectorsize (ref_page lib it))
    have hb := List.countP_le_length (fun c => !is_blank c && lib.af_is_badsector c)
      (l := ref_sector_chunks lib.af_get_sectorsize (ref_page lib it))
    simp only [ref_tally, List.map_cons, List.flatMap_cons, List.countP_append,
      List.countP_cons, List.sum_cons, List.length_cons] at h1 h2 h3 ⊢
    refine ⟨by omega, by omega, ?_⟩
    split_ifs <;> omega

/-- C10: with a sector size `S >= 1` and every page of the list retrieved with a length that
is a multiple of `S`, the statistics loop ends and each of its five `uint64_t` counters is
the reference count modulo `2^64`: pages the number of indices, sectors the sum of page
length / `S`, zsectors the blank chunks, badsectors the non-blank chunks flagged bad, zpages
the pages whose chunks are all blank. So the tally is the reference tally whenever the
numbers of pages and of sectors are below `2^64`. -/
theorem xml_info_stats_eq_reference (lib : Afflib) (pagelist : List Int)
    (hS : 1 ≤ lib.af_get_sectorsize)
    (hpages : ∀ it ∈ pagelist, ∃ data, lib.af_get_page it = some data ∧
      lib.af_get_sectorsize ∣ data.length) :
    xml_info_stats lib pagelist = some
      { zsectors := (ref_tally lib pagelist).zsectors % 2 ^ 64
        badsectors := (ref_tally lib pagelist).badsectors % 2 ^ 64
        zpages := (ref_tally lib pagelist).zpages % 2 ^ 64
        pages := (ref_tally lib pagelist).pages % 2 ^ 64
        sectors := (ref_tally lib pagelist).sectors % 2 ^ 64 } ∧
    (pagelist.length < 2 ^ 64 → (ref_tally lib pagelist).sectors < 2 ^ 64 →
      xml_info_stats lib pagelist = some (ref_tally lib pagelist)) := by
  have hz : (0 : Nat) < 2 ^ 64 := by norm_num
  have hloop : xml_info_stats lib pagelist = some
      { zsectors := (ref_tally lib pagelist).zsectors % 2 ^ 64
        badsectors := (ref_tally lib pagelist).badsectors % 2 ^ 64
        zpages := (ref_tally lib pagelist).zpages % 2 ^ 64
        pages := (ref_tally lib pagelist).pages % 2 ^ 64
        sectors := (ref_tally lib pagelist).sectors % 2 ^ 64 } := by
    unfold xml_info_stats
    rw [stats_loop_spec lib hS pagelist psb_zero hpages]
    simp only [psb_zero, incr64_iterate _ 0 hz, Nat.zero_add]
  refine ⟨hloop, ?_⟩
  intro hp hs
  obtain ⟨h1, h2, h3⟩ := ref_tally_bounds lib pagelist
  have hpl : (ref_tally lib pagelist).pages = pagelist.length := rfl
  rw [hloop, Nat.mod_eq_of_lt (lt_of_le_of_lt h1 hs), Nat.mod_eq_of_lt (lt_of_le_of_lt h2 hs),
    Nat.mod_eq_of_lt (lt_of_le_of_lt h3 (hpl ▸ hp)), Nat.mod_eq_of_lt (hpl ▸ hp),
    Nat.mod_eq_of_lt hs]

/-- C10 at 2-byte sectors and the page list 0, 1, 2, 1 (a blank page, a page with a blank, a
bad and a normal sector, an empty page): 4 pages, 8 sectors, 4 blank sectors, 2 bad sectors,
2 blank pages. -/
theorem xml_info_stats_eq_reference_witness :
    1 ≤ sample_pages.af_get_sectorsize ∧
    ref_tally sample_pages [0, 1, 2, 1] =
      { zsectors := 4, badsectors := 2, zpages := 2, pages := 4, sectors := 8 } ∧
    xml_info_stats sample_pages [0, 1, 2, 1] =
      some { zsectors := 4, badsectors := 2, zpages := 2, pages := 4, sectors := 8 } :=
  ⟨by decide, by decide,
    ((xml_info_stats_eq_reference sample_pages [0, 1, 2, 1] (by decide)
      (by
        intro it hit
        simp only [List.mem_cons, List.mem_singleton, List.not_mem_nil, or_false] at hit
        rcases hit with h | h | h | h <;> subst h
        · exact ⟨[0, 0, 0, 0], rfl, by decide⟩
        · exact ⟨[0, 0, 255, 1, 7, 0], rfl, by decide⟩
        · exact ⟨[], rfl, by decide⟩
        · exact ⟨[0, 0, 255, 1, 7, 0], rfl, by decide⟩)).2 (by decide) (by decide)).trans
      (congrArg some (by decide))⟩

/-- A buffer of zero bytes is blank. -/
theorem is_blank_replicate_zero (n : Nat) : is_blank (List.replicate n (0 : Byte)) = true := by
  induction n with
  | zero => rfl
  | succ n ih => simp [List.replicate_succ, is_blank, ih]

/-- The sector chunks of a page of `k * S` zero bytes are `k` chunks of `S` zero bytes. -/
theorem ref_sector_chunks_zero (S k : Nat) (hS : 1 ≤ S) :
    ref_sector_chunks S (List.replicate (k * S) (0 : Byte)) =
      List.replicate k (List.replicate S (0 : Byte)) := by
  induction k with
  | zero => simp [ref_sector_chunks]
  | succ k ih =>
    have hlen : S ≤ (List.replicate ((k + 1) * S) (0 : Byte)).length := by
      rw [List.length_replicate, Nat.add_mul, Nat.one_mul]
      omega
    have hsub : (k + 1) * S - S = k * S := by
      rw [Nat.add_mul, Nat.one_mul]
      omega
    have hmin : min S ((k + 1) * S) = S := by
      rw [Nat.add_mul, Nat.one_mul]
      omega
    rw [ref_sector_chunks_step S _ hS hlen, List.take_replicate, List.drop_replicate, hsub,
      hmin, ih, List.replicate_succ]

/-- Counting up at least once adds modulo `2^64`, from any value. -/
theorem incr64_iterate_pos (k x : Nat) (hk : 1 ≤ k) :
    incr64^[k] x = (x + k) % 2 ^ 64 := by
  obtain ⟨j, rfl⟩ : ∃ j, k = j + 1 := ⟨k - 1, by omega⟩
  rw [Function.iterate_succ_apply, incr64_iterate j (incr64 x) (Nat.mod_lt _ (by norm_num))]
  unfold incr64
  omega

/-- C11: with a sector size `S >= 1` and `k >= 1`, scanning one page of `k * S` zero bytes
changes any starting tally by pages +1, sectors +k, zsectors +k, zpages +1 and leaves
badsectors as it is, whatever the bad-sector test answers; the additions are those of
`uint64_t` counters, so they are exact whenever the sums stay below `2^64`. -/
theorem zero_page_scan (lib : Afflib) (it : Int) (k : Nat) (psb : page_stat_block)
    (hS : 1 ≤ lib.af_get_sectorsize) (hk : 1 ≤ k)
    (hpage : lib.af_get_page it =
      some (List.replicate (k * lib.af_get_sectorsize) (0 : Byte))) :
    stats_loop lib [it] psb = some
      { zsectors := (psb.zsectors + k) % 2 ^ 64
        badsectors := psb.badsectors
        zpages := (psb.zpages + 1) % 2 ^ 64
        pages := (psb.pages + 1) % 2 ^ 64
        sectors := (psb.sectors + k) % 2 ^ 64 } ∧
    (psb.zsectors + k < 2 ^ 64 → psb.zpages + 1 < 2 ^ 64 → psb.pages + 1 < 2 ^ 64 →
      psb.sectors + k < 2 ^ 64 →
      stats_loop lib [it] psb = some
        { zsectors := psb.zsectors + k
          badsectors := psb.badsectors
          zpages := psb.zpages + 1
          pages := psb.pages + 1
          sectors := psb.sectors + k }) := by
  have hall : ∀ i ∈ [it], ∃ data, lib.af_get_page i = some data ∧
      lib.af_get_sectorsize ∣ data.length := by
    intro i hi
    rw [List.mem_singleton] at hi
    subst hi
    exact ⟨_, hpage, by rw [List.length_replicate]; exact Nat.dvd_mul_left _ _⟩
  have hpg : ref_page lib it = List.replicate (k * lib.af_get_sectorsize) (0 : Byte) := by
    simp [ref_page, hpage]
  have hS0 : 0 < lib.af_get_sectorsize := by omega
  have hz : (ref_tally lib [it]).zsectors = k := by
    simp [ref_tally, hpg, ref_sector_chunks_zero _ _ hS, List.countP_replicate,
      is_blank_replicate_zero]
  have hb : (ref_tally lib [it]).badsectors = 0 := by
    simp [ref_tally, hpg, ref_sector_chunks_zero _ _ hS, List.countP_replicate,
      is_blank_replicate_zero]
  have hzp : (ref_tally lib [it]).zpages = 1 := by
    simp [ref_tally, hpg, ref_sector_chunks_zero _ _ hS, is_blank_replicate_zero]
  have hp : (ref_tally lib [it]).pages = 1 := rfl
  have hs : (ref_tally lib [it]).sectors = k := by
    simp [ref_tally, hpg, Nat.mul_div_cancel _ hS0]
  have hloop := stats_loop_spec lib hS [it] psb hall
  rw [hz, hb, hzp, hp, hs, incr64_iterate_pos k _ hk, incr64_iterate_pos k _ hk,
    incr64_iterate_pos 1 _ (le_refl 1), incr64_iterate_pos 1 _ (le_refl 1),
    Function.iterate_zero, id] at hloop
  refine ⟨hloop, ?_⟩
  intro h1 h2 h3 h4
  rw [hloop, Nat.mod_eq_of_lt h1, Nat.mod_eq_of_lt h2, Nat.mod_eq_of_lt h3,
    Nat.mod_eq_of_lt h4]

/-- Scenario D: one page of 4096 zero bytes with 512-byte sectors, every sector flagged bad,
scanned from the zero tally: 1 page, 8 sectors, 8 blank sectors, 1 blank page, no bad
sector. -/
theorem zero_page_scan_witness :
    1 ≤ sample_zero_page.af_get_sectorsize ∧
    sample_zero_page.af_is_badsector (List.replicate 512 0) = true ∧
    stats_loop sample_zero_page [0] psb_zero = some
      { zsectors := 8, badsectors := 0, zpages := 1, pages := 1, sectors := 8 } :=
  ⟨by decide, rfl,
    (zero_page_scan sample_zero_page 0 8 psb_zero (by decide) (by decide) rfl).2
      (by decide) (by decide) (by decide) (by decide)⟩

/-- Every element of a list falls in exactly one of the three classes cut out by two
tests, the first test winning. -/
theorem countP_three_classes {α : Type} (p q : α → Bool) (l : List α) :
    l.countP p + l.countP (fun c => !p c && q c) + l.countP (fun c => !p c && !q c) =
      l.length := by
  induction l with
  | nil => rfl
  | cons a t ih =>
    simp only [List.countP_cons, List.length_cons]
    cases hp : p a <;> cases hq : q a <;> simp <;> omega

/-- C12: in the page scan a sector chunk is counted in sectors once and falls in exactly one
class: blank (zsectors counted, the bad-sector test not consulted), bad (not blank and
flagged: badsectors counted) or normal (neither counter). A chunk of zero bytes counts in
zsectors and not in badsectors whatever the bad-sector test answers. Over a page of whole
sectors the three classes add up to the number of chunks, which is what sectors counts. -/
theorem sector_classified_once (lib : Afflib) (c : List Byte) (psb : page_stat_block)
    (ab : Bool) (hS : 1 ≤ lib.af_get_sectorsize) (hc : c.length = lib.af_get_sectorsize) :
    sector_loop lib c.length c (psb, ab) = some
      ({ zsectors := if is_blank c = true then incr64 psb.zsectors else psb.zsectors
         badsectors :=
           if is_blank c = false ∧ lib.af_is_badsector c = true then incr64 psb.badsectors
           else psb.badsectors
         zpages := psb.zpages
         pages := psb.pages
         sectors := incr64 psb.sectors }, ab && is_blank c) ∧
    ((∀ x ∈ c, x = 0) → is_blank c = true) ∧
    incr64 psb.zsectors ≠ psb.zsectors ∧ incr64 psb.badsectors ≠ psb.badsectors ∧
    (∀ page : List Byte, lib.af_get_sectorsize ∣ page.length →
      sector_loop lib page.length page (psb, ab) = some
        ({ zsectors :=
              incr64^[(ref_sector_chunks lib.af_get_sectorsize page).countP is_blank]
                psb.zsectors
           badsectors :=
              incr64^[(ref_sector_chunks lib.af_get_sectorsize page).countP
                (fun c => !is_blank c && lib.af_is_badsector c)] psb.badsectors
           zpages := psb.zpages
           pages := psb.pages
           sectors :=
              incr64^[(ref_sector_chunks lib.af_get_sectorsize page).length] psb.sectors },
          ab && (ref_sector_chunks lib.af_get_sectorsize page).all is_blank) ∧
      (ref_sector_chunks lib.af_get_sectorsize page).countP is_blank +
        (ref_sector_chunks lib.af_get_sectorsize page).countP
          (fun c => !is_blank c && lib.af_is_badsector c) +
        (ref_sector_chunks lib.af_get_sectorsize page).countP
          (fun c => !is_blank c && !lib.af_is_badsector c) =
        (ref_sector_chunks lib.af_get_sectorsize page).length) := by
  refine ⟨?_, ?_, ?_, ?_, ?_⟩
  · obtain ⟨b, bs, rfl⟩ : ∃ b bs, c = b :: bs := by
      cases c with
      | nil => simp at hc; omega
      | cons b bs => exact ⟨b, bs, rfl⟩
    have hlen : ¬ (b :: bs).length < lib.af_get_sectorsize := by omega
    have htake : (b :: bs).take lib.af_get_sectorsize = b :: bs := by
      rw [← hc]; exact List.take_length _
    have hdrop : (b :: bs).drop lib.af_get_sectorsize = [] := by
      rw [← hc]; exact List.drop_length _
    rw [List.length_cons]
    simp only [sector_loop, if_neg hlen, htake, hdrop]
    by_cases hb : is_blank (b :: bs) = true
    · simp [hb, sector_loop]
    · have hb' : is_blank (b :: bs) = false := by simpa using hb
      by_cases hbad : lib.af_is_badsector (b :: bs) = true
      · simp [hb', hbad, sector_loop]
      · have hbad' : lib.af_is_badsector (b :: bs) = false := by simpa using hbad
        simp [hb', hbad', sector_loop]
  · intro hzero
    clear hc
    induction c with
    | nil => rfl
    | cons a t ih =>
      have ha : a = 0 := hzero a (List.mem_cons_self a t)
      simp [is_blank, ha, ih (fun x hx => hzero x (List.mem_cons_of_mem a hx))]
  · unfold incr64; omega
  · unfold incr64; omega
  · intro page hdvd
    have hfuel : page.length ≤ page.length * lib.af_get_sectorsize :=
      Nat.le_mul_of_pos_right _ (by omega)
    have hn : (ref_sector_chunks lib.af_get_sectorsize page).length =
        page.length / lib.af_get_sectorsize := by
      simp [ref_sector_chunks]
    refine ⟨?_, countP_three_classes _ _ _⟩
    rw [hn]
    exact sector_loop_spec lib hS page.length page psb ab hdvd hfuel

/-- C12 at a sector of 512 zero bytes that the library flags bad: it counts as one sector and
one blank sector, and not as a bad sector. -/
theorem sector_classified_once_witness :
    1 ≤ sample_zero_page.af_get_sectorsize ∧
    sample_zero_page.af_is_badsector (List.replicate 512 0) = true ∧
    sector_loop sample_zero_page 512 (List.replicate 512 0) (psb_zero, true) = some
      ({ zsectors := 1, badsectors := 0, zpages := 0, pages := 0, sectors := 1 }, true) := by
  have h := (sector_classified_once sample_zero_page (List.replicate 512 0) psb_zero true
    (by decide) (List.length_replicate 512 0)).1
  rw [is_blank_replicate_zero, List.length_replicate] at h
  refine ⟨by decide, rfl, ?_⟩
  rw [h]
  rfl

/-- The sector loop over given bytes either fails from every state or adds fixed numbers to
the counters of every state. -/
theorem sector_loop_shape (lib : Afflib) :
    ∀ (fuel : Nat) (rest : List Byte),
      (∀ st, sector_loop lib fuel rest st = none) ∨
      (∃ (nz nb ns : Nat) (allb : Bool), ∀ (psb : page_stat_block) (ab : Bool),
        sector_loop lib fuel rest (psb, ab) = some
          ({ zsectors := incr64^[nz] psb.zsectors
             badsectors := incr64^[nb] psb.badsectors
             zpages := psb.zpages
             pages := psb.pages
             sectors := incr64^[ns] psb.sectors }, ab && allb)) := by
  intro fuel
  induction fuel with
  | zero =>
    intro rest
    cases rest with
    | nil => exact Or.inr ⟨0, 0, 0, true, fun psb ab => by simp [sector_loop]⟩
    | cons b bs => exact Or.inl (fun st => by simp [sector_loop])
  | succ n ih =>
    intro rest
    cases rest with
    | nil => exact Or.inr ⟨0, 0, 0, true, fun psb ab => by simp [sector_loop]⟩
    | cons b bs =>
      by_cases hlen : (b :: bs).length < lib.af_get_sectorsize
      · exact Or.inl (fun st => by
          obtain ⟨psb, ab⟩ := st
          simp only [sector_loop, if_pos hlen])
      · by_cases hb : is_blank ((b :: bs).take lib.af_get_sectorsize) = true
        · rcases ih ((b :: bs).drop lib.af_get_sectorsize) with hnone | ⟨nz, nb, ns, allb, h⟩
          · exact Or.inl (fun st => by
              obtain ⟨psb, ab⟩ := st
              simp only [sector_loop, if_neg hlen, if_pos hb]
              exact hnone _)
          · refine Or.inr ⟨nz + 1, nb, ns + 1, allb, fun psb ab => ?_⟩
            simp only [sector_loop, if_neg hlen, if_pos hb]
            rw [h]
            simp only [Function.iterate_succ_apply]
        · by_cases hbad : lib.af_is_badsector ((b :: bs).take lib.af_get_sectorsize) = true
          · rcases ih ((b :: bs).drop lib.af_get_sectorsize) with
              hnone | ⟨nz, nb, ns, allb, h⟩
            · exact Or.inl (fun st => by
                obtain ⟨psb, ab⟩ := st
                simp only [sector_loop, if_neg hlen, if_neg hb, if_pos hbad]
                exact hnone _)
            · refine Or.inr ⟨nz, nb + 1, ns + 1, false, fun psb ab => ?_⟩
              simp only [sector_loop, if_neg hlen, if_neg hb, if_pos hbad]
              rw [h]
              simp only [Function.iterate_succ_apply, Bool.false_and, Bool.and_false]
          · rcases ih ((b :: bs).drop lib.af_get_sectorsize) with
              hnone | ⟨nz, nb, ns, allb, h⟩
            · exact Or.inl (fun st => by
                obtain ⟨psb, ab⟩ := st
                simp only [sector_loop, if_neg hlen, if_neg hb, if_neg hbad]
                exact hnone _)
            · refine Or.inr ⟨nz, nb, ns + 1, false, fun psb ab => ?_⟩
              simp only [sector_loop, if_neg hlen, if_neg hb, if_neg hbad]
              rw [h]
              simp only [Function.iterate_succ_apply, Bool.false_and, Bool.and_false]

/-- The page loop over a list is the page loop over its first index, then over the rest. -/
theorem stats_loop_cons (lib : Afflib) (it : Int) (rest : List Int) (psb : page_stat_block) :
    stats_loop lib (it :: rest) psb = (stats_loop lib [it] psb).bind (stats_loop lib rest) := by
  simp only [stats_loop]
  cases lib.af_get_page it with
  | none => rfl
  | some data =>
    simp only []
    cases sector_loop lib data.length data ({ psb with pages := incr64 psb.pages }, true) with
    | none => rfl
    | some r =>
      obtain ⟨psb1, allblank⟩ := r
      rfl

/-- One iteration of the page loop either fails from every tally or adds fixed numbers to the
counters of every tally. -/
theorem stats_loop_single_shape (lib : Afflib) (it : Int) :
    (∀ psb, stats_loop lib [it] psb = none) ∨
    (∃ nz nb nzp ns : Nat, ∀ psb : page_stat_block,
      stats_loop lib [it] psb = some
        { zsectors := incr64^[nz] psb.zsectors
          badsectors := incr64^[nb] psb.badsectors
          zpages := incr64^[nzp] psb.zpages
          pages := incr64 psb.pages
          sectors := incr64^[ns] psb.sectors }) := by
  cases hget : lib.af_get_page it with
  | none => exact Or.inl (fun psb => by simp [stats_loop, hget])
  | some data =>
    rcases sector_loop_shape lib data.length data with hnone | ⟨nz, nb, ns, allb, h⟩
    · exact Or.inl (fun psb => by simp [stats_loop, hget, hnone])
    · cases allb with
      | true =>
        refine Or.inr ⟨nz, nb, 1, ns, fun psb => ?_⟩
        simp [stats_loop, hget, h]
      | false =>
        refine Or.inr ⟨nz, nb, 0, ns, fun psb => ?_⟩
        simp [stats_loop, hget, h]

/-- Two neighbouring iterations of the page loop can be exchanged. -/
theorem stats_loop_swap (lib : Afflib) (a b : Int) (l : List Int) (psb : page_stat_block) :
    stats_loop lib (a :: b :: l) psb = stats_loop lib (b :: a :: l) psb := by
  rw [stats_loop_cons lib a (b :: l) psb, stats_loop_cons lib b (a :: l) psb]
  rcases stats_loop_single_shape lib a with ha | ⟨az, ab, azp, as, ha⟩ <;>
    rcases stats_loop_single_shape lib b with hb | ⟨bz, bb, bzp, bs, hb⟩
  · simp only [ha, hb, Option.none_bind]
  · simp only [ha, hb, Option.none_bind, Option.some_bind, stats_loop_cons lib a l]
  · simp only [ha, hb, Option.none_bind, Option.some_bind, stats_loop_cons lib b l]
  · simp only [ha, hb, Option.some_bind, stats_loop_cons lib a l, stats_loop_cons lib b l]
    rw [incr64_iterate_comm bz az, incr64_iterate_comm bb ab, incr64_iterate_comm bzp azp,
      incr64_iterate_comm bs as]

/-- The page loop over the bytes of the pages gives the same result for a page list and for
every permutation of it, from every starting tally. -/
theorem stats_loop_perm (lib : Afflib) (l1 l2 : List Int) (hperm : List.Perm l1 l2) :
    (∀ psb, stats_loop lib l1 psb = stats_loop lib l2 psb) ∧
    xml_info_stats lib l1 = xml_info_stats lib l2 := by
  have key : ∀ psb, stats_loop lib l1 psb = stats_loop lib l2 psb := by
    induction hperm with
    | nil => intro psb; rfl
    | @cons x la lb _ ih =>
      intro psb
      rw [stats_loop_cons lib x la psb, stats_loop_cons lib x lb psb]
      cases stats_loop lib [x] psb with
      | none => rfl
      | some r => exact ih r
    | swap x y l => intro psb; exact stats_loop_swap lib y x l psb
    | trans _ _ ih1 ih2 => intro psb; exact (ih1 psb).trans (ih2 psb)
  exact ⟨key, key psb_zero⟩

/-- The page list 0, 1, 2, 1 and its rearrangement 1, 1, 2, 0 give the same tally. -/
theorem stats_loop_perm_witness :
    List.Perm ([0, 1, 2, 1] : List Int) [1, 1, 2, 0] ∧
    xml_info_stats sample_pages [0, 1, 2, 1] = xml_info_stats sample_pages [1, 1, 2, 0] ∧
    xml_info_stats sample_pages [1, 1, 2, 0] =
      some { zsectors := 4, badsectors := 2, zpages := 2, pages := 4, sectors := 8 } :=
  ⟨by decide, (stats_loop_perm sample_pages [0, 1, 2, 1] [1, 1, 2, 0] (by decide)).2,
    by decide⟩

/-- The allow-list test is membership in the allow-list. -/
theorem in_opt_j_list_iff (opt_j : List (List Char)) (segname : List Char) :
    in_opt_j_list opt_j segname = true ↔ segname ∈ opt_j := by
  induction opt_j with
  | nil => simp [in_opt_j_list]
  | cons e rest ih =>
    by_cases h : segname = e
    · simp [in_opt_j_list, h]
    · simp [in_opt_j_list, h, ih]

/-- The enumeration loop, from any state: the page segments among the survivors extend the
page list and the count, the other survivors extend the segment list, both in order. -/
theorem segment_loop_spec (lib : Afflib) (opt_j : List (List Char)) :
    ∀ (names : List (List Char)) (st : seg_lists),
      segment_loop lib opt_j names st =
        { pages := int_incr^[((ref_survivors lib opt_j names).filter
            (fun n => decide (lib.af_segname_page_number n ≥ 0))).length] st.pages
          seglist := st.seglist ++ (ref_survivors lib opt_j names).filter
            (fun n => decide (lib.af_segname_page_number n < 0))
          pagelist := st.pagelist ++ ((ref_survivors lib opt_j names).filter
            (fun n => decide (lib.af_segname_page_number n ≥ 0))).map
              lib.af_segname_page_number } := by
  intro names
  induction names with
  | nil => intro st; simp [segment_loop, ref_survivors]
  | cons n rest ih =>
    intro st
    have hrest : ∀ keep : Bool,
        (decide (n ≠ []) && decide (n ≠ lib.AF_DIRECTORY) &&
          !strstr n lib.AF_AES256_SUFFIX && (decide (opt_j = []) || decide (n ∈ opt_j))) = keep →
        ref_survivors lib opt_j (n :: rest) =
          if keep = true then n :: ref_survivors lib opt_j rest
          else ref_survivors lib opt_j rest := by
      intro keep hk
      unfold ref_survivors
      rw [List.filter_cons, hk]
    by_cases h1 : n = []
    · rw [hrest false (by simp [h1])]
      simp only [segment_loop, if_pos h1, Bool.false_eq_true, if_false]
      exact ih st
    · by_cases h2 : n = lib.AF_DIRECTORY
      · rw [hrest false (by simp [h2])]
        simp only [segment_loop, if_neg h1, if_pos h2, Bool.false_eq_true, if_false]
        exact ih st
      · by_cases h3 : strstr n lib.AF_AES256_SUFFIX = true
        · rw [hrest false (by simp [h3])]
          simp only [segment_loop, if_neg h1, if_neg h2, if_pos h3, Bool.false_eq_true,
            if_false]
          exact ih st
        · have h3' : strstr n lib.AF_AES256_SUFFIX = false := by simpa using h3
          by_cases h4 : opt_j.length > 0 ∧ in_opt_j_list opt_j n = false
          · have hne : opt_j ≠ [] := by
              intro he
              rw [he] at h4
              exact absurd h4.1 (by simp)
            have hnot : n ∉ opt_j := by
              intro hm
              rw [(in_opt_j_list_iff opt_j n).2 hm] at h4
              exact Bool.noConfusion h4.2
            rw [hrest false (by simp [hne, hnot])]
            simp only [segment_loop, if_neg h1, if_neg h2, if_neg h3, if_pos h4,
              Bool.false_eq_true, if_false]
            exact ih st
          · have hkeep : opt_j = [] ∨ n ∈ opt_j := by
              by_cases he : opt_j = []
              · exact Or.inl he
              · right
                have hpos : opt_j.length > 0 := List.length_pos.mpr he
                have hin : in_opt_j_list opt_j n = true := by
                  cases hv : in_opt_j_list opt_j n with
                  | true => rfl
                  | false => exact absurd ⟨hpos, hv⟩ h4
                exact (in_opt_j_list_iff opt_j n).1 hin
            rw [hrest true (by
              rcases hkeep with he | hm
              · simp [h1, h2, h3', he]
              · simp [h1, h2, h3', hm])]
            simp only [segment_loop, if_neg h1, if_neg h2, if_neg h3, if_neg h4, if_true]
            by_cases h5 : lib.af_segname_page_number n ≥ 0
            · have h5' : ¬ lib.af_segname_page_number n < 0 := by omega
              simp only [if_pos h5]
              rw [ih]
              simp [List.filter_cons, h5, h5', Function.iterate_succ_apply]
            · have h5' : lib.af_segname_page_number n < 0 := by omega
              simp only [if_neg h5]
              rw [ih]
              simp [List.filter_cons, h5, h5']

/-- C14: the ordinary-segment list `xml_info` builds is the enumerated names, in enumeration
order, that are non-empty, are not the directory name, do not contain the AES-256 suffix, are
not page names and, when the allow-list is not empty, equal one of its entries. With the
allow-list "case_number" and the names "case_number", "operator_name" the list is
"case_number" alone. -/
theorem seglist_is_filtered_names (lib : Afflib) (opt_j : List (List Char))
    (names : List (List Char)) :
    (xml_info_lists lib opt_j names).seglist =
      names.filter (fun n => decide (n ≠ []) && decide (n ≠ lib.AF_DIRECTORY) &&
        !strstr n lib.AF_AES256_SUFFIX && (decide (opt_j = []) || decide (n ∈ opt_j)) &&
        decide (lib.af_segname_page_number n < 0)) ∧
    List.Sublist (xml_info_lists lib opt_j names).seglist names ∧
    (xml_info_lists sample_lib ["case_number".toList]
        ["case_number".toList, "operator_name".toList]).seglist = ["case_number".toList] := by
  have h : (xml_info_lists lib opt_j names).seglist =
      names.filter (fun n => decide (n ≠ []) && decide (n ≠ lib.AF_DIRECTORY) &&
        !strstr n lib.AF_AES256_SUFFIX && (decide (opt_j = []) || decide (n ∈ opt_j)) &&
        decide (lib.af_segname_page_number n < 0)) := by
    unfold xml_info_lists
    rw [segment_loop_spec]
    simp only [seg_lists_init, List.nil_append, ref_survivors, List.filter_filter]
    apply List.filter_congr
    intro n _
    rw [Bool.and_comm]
  refine ⟨h, ?_, by decide⟩
  rw [h]
  exact List.filter_sublist _

/-- Counting up an `int` from a non-negative value adds, while the sum stays below `2^31`. -/
theorem int_incr_iterate (k : Nat) (x : Int) (hx : 0 ≤ x) (hk : x + k < 2 ^ 31) :
    int_incr^[k] x = x + k := by
  induction k generalizing x with
  | zero => simp
  | succ k ih =>
    have hstep : int_incr x = x + 1 := by
      unfold int_incr
      push_cast at hk
      omega
    rw [Function.iterate_succ_apply, hstep, ih (x + 1) (by omega) (by push_cast at hk ⊢; omega)]
    push_cast
    omega

/-- C15: every name that survives the discard rules and the allow-list goes to exactly one
of the two lists, the page list when `af_segname_page_number` is not negative and the
ordinary-segment list otherwise; each list keeps the enumeration order; no page segment is
in the ordinary-segment list; and the number written in the `pages` element is the length
of the page list, as an `int` (exactly so for fewer than `2^31` pages). -/
theorem lists_partition_survivors (lib : Afflib) (opt_j : List (List Char))
    (names : List (List Char)) :
    (xml_info_lists lib opt_j names).seglist =
      (ref_survivors lib opt_j names).filter
        (fun n => decide (lib.af_segname_page_number n < 0)) ∧
    (xml_info_lists lib opt_j names).pagelist =
      ((ref_survivors lib opt_j names).filter
        (fun n => decide (lib.af_segname_page_number n ≥ 0))).map
          lib.af_segname_page_number ∧
    (xml_info_lists lib opt_j names).pagelist.length +
        (xml_info_lists lib opt_j names).seglist.length =
      (ref_survivors lib opt_j names).length ∧
    (∀ n ∈ ref_survivors lib opt_j names,
      (lib.af_segname_page_number n ≥ 0 →
        lib.af_segname_page_number n ∈ (xml_info_lists lib opt_j names).pagelist ∧
        n ∉ (xml_info_lists lib opt_j names).seglist) ∧
      (lib.af_segname_page_number n < 0 → n ∈ (xml_info_lists lib opt_j names).seglist)) ∧
    (∀ n ∈ (xml_info_lists lib opt_j names).seglist, lib.af_segname_page_number n < 0) ∧
    (xml_info_lists lib opt_j names).pages =
      int_incr^[(xml_info_lists lib opt_j names).pagelist.length] 0 ∧
    ((xml_info_lists lib opt_j names).pagelist.length < 2 ^ 31 →
      (xml_info_lists lib opt_j names).pages =
        ((xml_info_lists lib opt_j names).pagelist.length : Int) ∧
      pages_line (xml_info_lists lib opt_j names).pages =
        "    <pages coding='base10'>".toList ++
          Nat.toDigits 10 (xml_info_lists lib opt_j names).pagelist.length ++
          "</pages>\n".toList) := by
  have hloop := segment_loop_spec lib opt_j names seg_lists_init
  have hseg : (xml_info_lists lib opt_j names).seglist =
      (ref_survivors lib opt_j names).filter
        (fun n => decide (lib.af_segname_page_number n < 0)) := by
    unfold xml_info_lists
    rw [hloop]
    simp [seg_lists_init]
  have hpl : (xml_info_lists lib opt_j names).pagelist =
      ((ref_survivors lib opt_j names).filter
        (fun n => decide (lib.af_segname_page_number n ≥ 0))).map
          lib.af_segname_page_number := by
    unfold xml_info_lists
    rw [hloop]
    simp [seg_lists_init]
  have hpages : (xml_info_lists lib opt_j names).pages =
      int_incr^[(xml_info_lists lib opt_j names).pagelist.length] 0 := by
    rw [hpl, List.length_map]
    unfold xml_info_lists
    rw [hloop]
    simp [seg_lists_init]
  have hcount : ∀ l : List (List Char),
      (l.filter (fun n => decide (lib.af_segname_page_number n ≥ 0))).length +
        (l.filter (fun n => decide (lib.af_segname_page_number n < 0))).length = l.length := by
    intro l
    induction l with
    | nil => rfl
    | cons a t ih =>
      by_cases h : lib.af_segname_page_number a ≥ 0
      · have h' : ¬ lib.af_segname_page_number a < 0 := by omega
        simp only [List.filter_cons, h, h', decide_True, decide_False, if_true,
          Bool.false_eq_true, if_false, List.length_cons]
        omega
      · have h' : lib.af_segname_page_number a < 0 := by omega
        simp only [List.filter_cons, h, h', decide_True, decide_False, if_true,
          Bool.false_eq_true, if_false, List.length_cons]
        omega
  refine ⟨hseg, hpl, ?_, ?_, ?_, hpages, ?_⟩
  · rw [hseg, hpl, List.length_map]
    exact hcount _
  · intro n hn
    constructor
    · intro hge
      constructor
      · rw [hpl]
        exact List.mem_map.mpr ⟨n, List.mem_filter.mpr ⟨hn, by simpa using hge⟩, rfl⟩
      · rw [hseg]
        intro hmem
        have := (List.mem_filter.mp hmem).2
        simp only [decide_eq_true_eq] at this
        omega
    · intro hlt
      rw [hseg]
      exact List.mem_filter.mpr ⟨hn, by simpa using hlt⟩
  · intro n hn
    rw [hseg] at hn
    simpa using (List.mem_filter.mp hn).2
  · intro hlt
    have hval : (xml_info_lists lib opt_j names).pages =
        ((xml_info_lists lib opt_j names).pagelist.length : Int) := by
      rw [hpages, int_incr_iterate _ 0 (le_refl 0) (by
        have : ((xml_info_lists lib opt_j names).pagelist.length : Int) < 2 ^ 31 := by
          exact_mod_cast hlt
        omega)]
      simp
    refine ⟨hval, ?_⟩
    rw [hval]
    simp [pages_line, fmt_d]

/-- The test `isalnum` of the "C" locale, which `Char.isAlphanum` is: the letters `A`..`Z`
and `a`..`z` and the digits `0`..`9`. -/
theorem isAlphanum_iff (c : Char) :
    c.isAlphanum = true ↔
      ((65 ≤ c.toNat ∧ c.toNat ≤ 90) ∨ (97 ≤ c.toNat ∧ c.toNat ≤ 122) ∨
        (48 ≤ c.toNat ∧ c.toNat ≤ 57)) := by
  simp only [Char.isAlphanum, Char.isAlpha, Char.isUpper, Char.isLower, Char.isDigit,
    Bool.or_eq_true, Bool.and_eq_true, decide_eq_true_eq, UInt32.le_def, Char.toNat,
    BitVec.le_def]
  change ((65 ≤ c.val.toNat ∧ c.val.toNat ≤ 90) ∨ (97 ≤ c.val.toNat ∧ c.val.toNat ≤ 122)) ∨
      (48 ≤ c.val.toNat ∧ c.val.toNat ≤ 57) ↔ _
  exact or_assoc

/-- Sanitizing one character twice is sanitizing it once. -/
theorem sanitize_char_idem (c : Char) :
    (if (if c.isAlphanum = true then c else '_').isAlphanum = true
      then (if c.isAlphanum = true then c else '_') else '_') =
      (if c.isAlphanum = true then c else '_') := by
  by_cases h : c.isAlphanum = true
  · simp [h]
  · simp only [if_neg h]
    rfl

/-- C16: the sanitized tag name has the length of the segment name (so it is not empty when
the name is not), all its characters are in `[A-Za-z0-9_]`, at every position a letter or
digit of the name is kept and any other character becomes `_`, and sanitizing it again
changes nothing. -/
theorem sanitize_spec (name : List Char) :
    (sanitize name).length = name.length ∧
    (name ≠ [] → sanitize name ≠ []) ∧
    (∀ c ∈ sanitize name,
      (65 ≤ c.toNat ∧ c.toNat ≤ 90) ∨ (97 ≤ c.toNat ∧ c.toNat ≤ 122) ∨
        (48 ≤ c.toNat ∧ c.toNat ≤ 57) ∨ c = '_') ∧
    (∀ (i : Nat) (c : Char), name[i]? = some c →
      (sanitize name)[i]? = some
        (if (65 ≤ c.toNat ∧ c.toNat ≤ 90) ∨ (97 ≤ c.toNat ∧ c.toNat ≤ 122) ∨
            (48 ≤ c.toNat ∧ c.toNat ≤ 57) then c else '_')) ∧
    sanitize (sanitize name) = sanitize name := by
  refine ⟨by simp [sanitize], ?_, ?_, ?_, ?_⟩
  · intro hne hs
    apply hne
    simpa [sanitize] using hs
  · intro c hc
    unfold sanitize at hc
    obtain ⟨d, -, hd⟩ := List.mem_map.mp hc
    by_cases h : d.isAlphanum = true
    · rw [if_pos h] at hd
      subst hd
      rcases (isAlphanum_iff d).1 h with h1 | h2 | h3
      · exact Or.inl h1
      · exact Or.inr (Or.inl h2)
      · exact Or.inr (Or.inr (Or.inl h3))
    · rw [if_neg h] at hd
      exact Or.inr (Or.inr (Or.inr hd.symm))
  · intro i c hi
    unfold sanitize
    rw [List.getElem?_map, hi, Option.map_some']
    by_cases h : c.isAlphanum = true
    · rw [if_pos h, if_pos ((isAlphanum_iff c).1 h)]
    · rw [if_neg h, if_neg (fun hr => h ((isAlphanum_iff c).2 hr))]
  · unfold sanitize
    rw [List.map_map]
    apply List.map_congr_left
    intro c _
    exact sanitize_char_idem c

/-- A sanitized character equals a letter or digit exactly when the character does. -/
theorem sanitize_char_eq_iff (a x : Char) (hx : x.isAlphanum = true) :
    (if a.isAlphanum = true then a else '_') = x ↔ a = x := by
  by_cases h : a.isAlphanum = true
  · rw [if_pos h]
  · rw [if_neg h]
    constructor
    · intro hu
      rw [← hu] at hx
      exact absurd hx (by decide)
    · intro ha
      rw [ha] at h
      exact absurd hx h

/-- A sanitized name equals a string of letters and digits exactly when the name does. -/
theorem sanitize_eq_iff (s t : List Char) (ht : ∀ c ∈ t, c.isAlphanum = true) :
    sanitize s = t ↔ s = t := by
  induction s generalizing t with
  | nil => simp [sanitize]
  | cons a s ih =>
    cases t with
    | nil => simp [sanitize]
    | cons x t =>
      have hx : x.isAlphanum = true := ht x (List.mem_cons_self x t)
      have hrest : ∀ c ∈ t, c.isAlphanum = true :=
        fun c hc => ht c (List.mem_cons_of_mem x hc)
      have ih' := ih t hrest
      unfold sanitize at ih' ⊢
      rw [List.map_cons, List.cons.injEq, List.cons.injEq, sanitize_char_eq_iff a x hx, ih']

/-- The "md5" test gives the same answer on the sanitized tag name and on the segment
name. -/
theorem ends_md5_sanitize (name : List Char) : ends_md5 (sanitize name) = ends_md5 name := by
  have hlen : (sanitize name).length = name.length := by simp [sanitize]
  have hdrop : (sanitize name).drop (name.length - 3) = sanitize (name.drop (name.length - 3)) := by
    simp [sanitize, List.map_drop]
  have hmd5 : ∀ c ∈ "md5".toList, c.isAlphanum = true := by decide
  unfold ends_md5
  rw [hlen, hdrop]
  congr 1
  exact decide_eq_decide.mpr (sanitize_eq_iff _ _ hmd5)

/-- A display-as-quad convention that accepts only names of letters and digits gives the same
answer on the sanitized tag name and on the segment name. -/
theorem display_as_quad_sanitize (lib : Afflib) (name : List Char)
    (hconv : ∀ n, lib.af_display_as_quad n = true → ∀ c ∈ n, c.isAlphanum = true) :
    lib.af_display_as_quad (sanitize name) = lib.af_display_as_quad name := by
  cases hs : lib.af_display_as_quad (sanitize name) with
  | true =>
    have heq : name = sanitize name :=
      ((sanitize_eq_iff name (sanitize name) (hconv _ hs)).1 rfl)
    rw [← heq] at hs
    exact hs.symm
  | false =>
    cases hn : lib.af_display_as_quad name with
    | false => rfl
    | true =>
      have heq : sanitize name = name := (sanitize_eq_iff name name (hconv _ hn)).2 rfl
      rw [heq, hn] at hs
      exact Bool.noConfusion hs

/-- C17, amended: when the display-as-quad convention of the library accepts only names made
of letters and digits, the branch the loop body takes, with both name tests applied to the
sanitized tag name, is the branch it would take with the tests applied to the original
segment name; the "md5" test agrees on the two names for every library. -/
theorem branch_unaffected_by_sanitization (lib : Afflib) (name : List Char) (arg : Nat)
    (data : List Byte)
    (hconv : ∀ n, lib.af_display_as_quad n = true → ∀ c ∈ n, c.isAlphanum = true) :
    (xml_info_segment lib name arg data).branch = ref_branch_original_name lib name arg data ∧
    ends_md5 (sanitize name) = ends_md5 name ∧
    lib.af_display_as_quad (sanitize name) = lib.af_display_as_quad name := by
  have hq := display_as_quad_sanitize lib name hconv
  have hm := ends_md5_sanitize name
  refine ⟨?_, hm, hq⟩
  unfold ref_branch_original_name
  rw [← hq, ← hm]
  by_cases hQ : data.length = 8 ∧ (Nat.land (arg % 2 ^ 32) lib.AF_SEG_QUADWORD ≠ 0 ∨
      lib.af_display_as_quad (sanitize name) = true)
  · rw [xml_info_segment_quad lib name arg data hQ, if_pos hQ]
  · by_cases h0 : data.length = 0
    · rw [xml_info_segment_raw lib name arg data hQ h0, if_neg hQ, if_pos h0]
    · by_cases hmd : ends_md5 (sanitize name) = true
      · rw [xml_info_segment_hex lib name arg data hQ h0 hmd, if_neg hQ, if_neg h0, if_pos hmd]
      · have hmd' : ends_md5 (sanitize name) = false := by simpa using hmd
        by_cases hp : okay_to_print lib.char_signed data = true
        · rw [xml_info_segment_text lib name arg data hQ h0 hmd' hp, if_neg hQ, if_neg h0,
            if_neg hmd, if_pos hp]
        · have hp' : okay_to_print lib.char_signed data = false := by simpa using hp
          rw [xml_info_segment_b64 lib name arg data hQ h0 hmd' hp', if_neg hQ, if_neg h0,
            if_neg hmd, if_neg hp]

/-- The amended C17 in a library whose only quad name is "imagesize": the segment
"imagesize" with an 8-byte payload is Quad64 by the sanitized and by the original name, the
segment "image.size" with the same payload is Base64 by both, and the segment "case.md5"
with a 3-byte payload is Hex by both. -/
theorem branch_unaffected_by_sanitization_witness :
    (∀ n, sample_lib.af_display_as_quad n = true → ∀ c ∈ n, c.isAlphanum = true) ∧
    (xml_info_segment sample_lib "imagesize".toList 0 [0, 0, 0, 0, 0, 0, 16, 0]).branch =
      Branch.Quad64 ∧
    ref_branch_original_name sample_lib "imagesize".toList 0 [0, 0, 0, 0, 0, 0, 16, 0] =
      Branch.Quad64 ∧
    (xml_info_segment sample_lib "image.size".toList 0 [0, 0, 0, 0, 0, 0, 16, 0]).branch =
      Branch.Base64 ∧
    ref_branch_original_name sample_lib "image.size".toList 0 [0, 0, 0, 0, 0, 0, 16, 0] =
      Branch.Base64 ∧
    (xml_info_segment sample_lib "case.md5".toList 0 [1, 2, 3]).branch = Branch.Hex ∧
    ref_branch_original_name sample_lib "case.md5".toList 0 [1, 2, 3] = Branch.Hex := by
  have hconv : ∀ n, sample_lib.af_display_as_quad n = true →
      ∀ c ∈ n, c.isAlphanum = true := by
    intro n hn
    have hname : n = "imagesize".toList := of_decide_eq_true hn
    subst hname
    decide
  have h1 := (branch_unaffected_by_sanitization sample_lib "imagesize".toList 0
    [0, 0, 0, 0, 0, 0, 16, 0] hconv).1
  have h2 := (branch_unaffected_by_sanitization sample_lib "image.size".toList 0
    [0, 0, 0, 0, 0, 0, 16, 0] hconv).1
  have h3 := (branch_unaffected_by_sanitization sample_lib "case.md5".toList 0 [1, 2, 3]
    hconv).1
  refine ⟨hconv, ?_, by decide, ?_, by decide, ?_, by decide⟩
  · rw [h1]; decide
  · rw [h2]; decide
  · rw [h3]; decide

/-- C17, as the claim states it, fails: under a display-as-quad convention that accepts the
name "a_b", the segment "a.b" with the 8-byte payload 00 .. 00 01 is Quad64 by the test on
its sanitized tag name, as the loop body makes it, and Base64 when the tests are applied to
its original name. -/
theorem branch_changed_by_sanitization :
    sanitize "a.b".toList = "a_b".toList ∧
    (xml_info_segment sample_underscore_lib "a.b".toList 0
      [0, 0, 0, 0, 0, 0, 0, 1]).branch = Branch.Quad64 ∧
    ref_branch_original_name sample_underscore_lib "a.b".toList 0
      [0, 0, 0, 0, 0, 0, 0, 1] = Branch.Base64 ∧
    (xml_info_segment sample_underscore_lib "a.b".toList 0
      [0, 0, 0, 0, 0, 0, 0, 1]).branch ≠
      ref_branch_original_name sample_underscore_lib "a.b".toList 0
        [0, 0, 0, 0, 0, 0, 0, 1] := by
  decide

/-- C18: the option `-j case_number` alone, processed from the initial globals, appends the
name to the allow-list and also leaves `opt_x` at 1, so that the `affinfo` tag is written
without the `image_filename` attribute although no `-x` was given. -/
theorem option_j_sets_opt_x :
    main_options [Opt.j "case_number".toList] options_init =
      some { opt_x := 1, opt_j := ["case_number".toList], opt_stats := 0 } ∧
    affinfo_open 1 "image.aff".toList = "<affinfo>\n".toList ∧
    affinfo_open 0 "image.aff".toList = "<affinfo image_filename='image.aff'>\n".toList ∧
    main_options [Opt.x] options_init = some { opt_x := 1, opt_j := [], opt_stats := 0 } := by
  decide

/-- C20: a one-byte payload reaches the Base64 branch, where the buffer has
`datalen*2+2 = 4` bytes while the base64 text of one byte has 4 characters and needs a
fifth byte for its terminating NUL: `4*ceil(1/3) + 1 <= 2*1 + 2` is false and the call of
`b64_ntop` returns -1. -/
theorem b64size_short_for_one_byte :
    (xml_info_segment sample_lib "x".toList 0 [255]).branch = Branch.Base64 ∧
    (b64_text [255]).length = 4 * ((1 + 2) / 3) ∧
    ¬ (4 * ((1 + 2) / 3) + 1 ≤ 2 * 1 + 2) ∧
    b64_ntop [255] (([255] : List Byte).length * 2 + 2) = none := by
  decide

/-- Every iteration ends outside the second zero-length check and closes the element it
opened. -/
theorem xml_info_segment_closes (lib : Afflib) (name : List Char) (arg : Nat)
    (data : List Byte) :
    (xml_info_segment lib name arg data).branch ≠ Branch.ArgAttribute ∧
    (xml_info_segment lib name arg data).tail =
      "</".toList ++ sanitize name ++ ">\n".toList := by
  by_cases hQ : data.length = 8 ∧ (Nat.land (arg % 2 ^ 32) lib.AF_SEG_QUADWORD ≠ 0 ∨
      lib.af_display_as_quad (sanitize name) = true)
  · rw [xml_info_segment_quad lib name arg data hQ]
    exact ⟨fun h => Branch.noConfusion h, rfl⟩
  · by_cases h0 : data.length = 0
    · rw [xml_info_segment_raw lib name arg data hQ h0]
      exact ⟨fun h => Branch.noConfusion h, rfl⟩
    · by_cases hmd : ends_md5 (sanitize name) = true
      · rw [xml_info_segment_hex lib name arg data hQ h0 hmd]
        exact ⟨fun h => Branch.noConfusion h, rfl⟩
      · have hmd' : ends_md5 (sanitize name) = false := by simpa using hmd
        by_cases hp : okay_to_print lib.char_signed data = true
        · rw [xml_info_segment_text lib name arg data hQ h0 hmd' hp]
          exact ⟨fun h => Branch.noConfusion h, rfl⟩
        · have hp' : okay_to_print lib.char_signed data = false := by simpa using hp
          rw [xml_info_segment_b64 lib name arg data hQ h0 hmd' hp']
          exact ⟨fun h => Branch.noConfusion h, rfl⟩

/-- A sanitized name has no slash in it. -/
theorem sanitize_no_slash (name : List Char) : '/' ∉ sanitize name := by
  intro h
  unfold sanitize at h
  obtain ⟨d, -, hd⟩ := List.mem_map.mp h
  by_cases hal : d.isAlphanum = true
  · rw [if_pos hal] at hd
    rw [hd] at hal
    exact absurd hal (by decide)
  · rw [if_neg hal] at hd
    exact absurd hd (by decide)

/-- C19: no iteration of the emission loop ends in the second zero-length check, and the text
an iteration writes is never of the form `<tag arg='N' />`, for any tag and any `N`. -/
theorem arg_attribute_never_written (lib : Afflib) (name : List Char) (arg : Nat)
    (data : List Byte) :
    (xml_info_segment lib name arg data).branch ≠ Branch.ArgAttribute ∧
    (∀ tag digits : List Char,
      (xml_info_segment lib name arg data).text ≠
        some ("    <".toList ++ tag ++ " arg='".toList ++ digits ++ "' />\n".toList)) := by
  obtain ⟨hbranch, htail⟩ := xml_info_segment_closes lib name arg data
  refine ⟨hbranch, ?_⟩
  intro tag digits heq
  unfold SegOutput.text at heq
  cases hbody : (xml_info_segment lib name arg data).body with
  | none =>
    rw [hbody] at heq
    exact Option.noConfusion heq
  | some b =>
    rw [hbody, Option.map_some', Option.some.injEq, htail] at heq
    have e1 : ">\n".toList = ['>', Char.ofNat 10] := by decide
    have e2 : "</".toList = ['<', '/'] := by decide
    have e3 : "' />\n".toList = [Char.ofNat 39, ' ', '/', '>', Char.ofNat 10] := by decide
    rw [e1, e2, e3] at heq
    have hr := congrArg List.reverse heq
    simp only [List.reverse_append, List.reverse_cons, List.reverse_nil, List.nil_append,
      List.cons_append, List.append_assoc, List.singleton_append, List.cons.injEq,
      true_and] at hr
    cases hrev : (sanitize name).reverse with
    | nil =>
      rw [hrev] at hr
      simp only [List.nil_append, List.cons.injEq, true_and] at hr
      exact absurd hr.1 (by decide)
    | cons c r =>
      rw [hrev] at hr
      simp only [List.cons_append, List.cons.injEq] at hr
      have hc : c ∈ sanitize name := by
        rw [← List.mem_reverse, hrev]
        exact List.mem_cons_self c r
      rw [hr.1] at hc
      exact sanitize_no_slash name hc

/-- On a page of whole sectors that fits the buffer, the sector loop reads page bytes only:
it is the sector loop over the bytes of the page from the offset on. -/
theorem sector_loop_buf_whole (lib : Afflib) (buf : List Byte) (pagesize : Nat)
    (hS : 1 ≤ lib.af_get_sectorsize) (hfit : pagesize ≤ buf.length) :
    ∀ (fuel s : Nat) (st : page_stat_block × Bool), s ≤ pagesize →
      lib.af_get_sectorsize ∣ (pagesize - s) →
      sector_loop_buf lib buf pagesize fuel s st =
        sector_loop lib fuel ((buf.take pagesize).drop s) st := by
  have hlen : ∀ s, ((buf.take pagesize).drop s).length = pagesize - s := by
    intro s
    rw [List.length_drop, List.length_take, Nat.min_eq_left hfit]
  intro fuel
  induction fuel with
  | zero =>
    intro s st hs _
    by_cases h : s < pagesize
    · obtain ⟨b, bs, hrest⟩ : ∃ b bs, (buf.take pagesize).drop s = b :: bs := by
        cases hr : (buf.take pagesize).drop s with
        | nil =>
          have := hlen s
          rw [hr] at this
          simp at this
          omega
        | cons b bs => exact ⟨b, bs, rfl⟩
      rw [hrest]
      simp [sector_loop_buf, sector_loop, h]
    · have hnil : (buf.take pagesize).drop s = [] :=
        List.length_eq_zero.mp (by rw [hlen]; omega)
      rw [hnil]
      simp [sector_loop_buf, sector_loop, h]
  | succ n ih =>
    intro s st hs hdvd
    obtain ⟨psb, ab⟩ := st
    by_cases h : s < pagesize
    · have hSle : lib.af_get_sectorsize ≤ pagesize - s := Nat.le_of_dvd (by omega) hdvd
      obtain ⟨b, bs, hrest⟩ : ∃ b bs, (buf.take pagesize).drop s = b :: bs := by
        cases hr : (buf.take pagesize).drop s with
        | nil =>
          have := hlen s
          rw [hr] at this
          simp at this
          omega
        | cons b bs => exact ⟨b, bs, rfl⟩
      have hchunk : (b :: bs).take lib.af_get_sectorsize =
          (buf.drop s).take lib.af_get_sectorsize := by
        rw [← hrest, List.drop_take, List.take_take, Nat.min_eq_left hSle]
      have hdrop : (b :: bs).drop lib.af_get_sectorsize =
          (buf.take pagesize).drop (s + lib.af_get_sectorsize) := by
        rw [← hrest, List.drop_drop]
      have hnotshort : ¬ (b :: bs).length < lib.af_get_sectorsize := by
        rw [← hrest, hlen]
        omega
      have hinbuf : ¬ buf.length < s + lib.af_get_sectorsize := by omega
      have hs' : s + lib.af_get_sectorsize ≤ pagesize := by omega
      have hdvd' : lib.af_get_sectorsize ∣ pagesize - (s + lib.af_get_sectorsize) := by
        have h2 : pagesize - (s + lib.af_get_sectorsize) =
            (pagesize - s) - lib.af_get_sectorsize := by omega
        rw [h2]
        exact Nat.dvd_sub' hdvd (dvd_refl _)
      rw [hrest]
      simp only [sector_loop_buf, sector_loop, if_pos h, if_neg hinbuf, if_neg hnotshort,
        hchunk, hdrop]
      by_cases hb : is_blank ((buf.drop s).take lib.af_get_sectorsize) = true
      · simp only [if_pos hb]
        exact ih _ _ hs' hdvd'
      · simp only [if_neg hb]
        by_cases hbad : lib.af_is_badsector ((buf.drop s).take lib.af_get_sectorsize) = true
        · simp only [if_pos hbad]
          exact ih _ _ hs' hdvd'
        · simp only [if_neg hbad]
          exact ih _ _ hs' hdvd'
    · have hnil : (buf.take pagesize).drop s = [] :=
        List.length_eq_zero.mp (by rw [hlen]; omega)
      rw [hnil]
      simp [sector_loop_buf, sector_loop, h]

/-- On pages of whole sectors that fit the buffer, the page loop does not depend on what the
buffer holds: it is the page loop over the bytes of the pages. -/
theorem stats_loop_buf_whole (lib : Afflib) (hS : 1 ≤ lib.af_get_sectorsize) :
    ∀ (pagelist : List Int) (buf : List Byte) (psb : page_stat_block),
      (∀ it ∈ pagelist, ∃ data, lib.af_get_page it = some data ∧
        lib.af_get_sectorsize ∣ data.length ∧ data.length ≤ buf.length) →
      stats_loop_buf lib pagelist buf psb = stats_loop lib pagelist psb := by
  intro pagelist
  induction pagelist with
  | nil => intro buf psb _; rfl
  | cons it rest ih =>
    intro buf psb hpages
    obtain ⟨data, hget, hdvd, hfit⟩ := hpages it (List.mem_cons_self it rest)
    have hbuflen : (data ++ buf.drop data.length).length = buf.length := by
      rw [List.length_append, List.length_drop]
      omega
    have htake : (data ++ buf.drop data.length).take data.length = data :=
      List.take_left' rfl
    have hsec := sector_loop_buf_whole lib (data ++ buf.drop data.length) data.length hS
      (by omega) data.length 0 ({ psb with pages := incr64 psb.pages }, true)
      (Nat.zero_le _) (by simpa using hdvd)
    rw [htake, List.drop_zero] at hsec
    have hrest : ∀ i ∈ rest, ∃ d, lib.af_get_page i = some d ∧
        lib.af_get_sectorsize ∣ d.length ∧
        d.length ≤ (data ++ buf.drop data.length).length := by
      intro i hi
      obtain ⟨d, h1, h2, h3⟩ := hpages i (List.mem_cons_of_mem it hi)
      exact ⟨d, h1, h2, by omega⟩
    simp only [stats_loop_buf, stats_loop, hget, if_neg (Nat.not_lt.mpr hfit), hsec]
    cases sector_loop lib data.length data ({ psb with pages := incr64 psb.pages }, true) with
    | none => rfl
    | some r =>
      obtain ⟨psb1, allblank⟩ := r
      exact ih _ _ hrest

/-- The text of an iteration is undefined exactly for a one-byte payload in the Base64
branch. -/
theorem xml_info_segment_text_none_iff (lib : Afflib) (name : List Char) (arg : Nat)
    (data : List Byte) :
    (xml_info_segment lib name arg data).text = none ↔
      ((xml_info_segment lib name arg data).branch = Branch.Base64 ∧ data.length = 1) := by
  unfold SegOutput.text
  by_cases hQ : data.length = 8 ∧ (Nat.land (arg % 2 ^ 32) lib.AF_SEG_QUADWORD ≠ 0 ∨
      lib.af_display_as_quad (sanitize name) = true)
  · rw [xml_info_segment_quad lib name arg data hQ]
    simp
  · by_cases h0 : data.length = 0
    · rw [xml_info_segment_raw lib name arg data hQ h0]
      simp
    · by_cases hmd : ends_md5 (sanitize name) = true
      · rw [xml_info_segment_hex lib name arg data hQ h0 hmd]
        simp
      · have hmd' : ends_md5 (sanitize name) = false := by simpa using hmd
        by_cases hp : okay_to_print lib.char_signed data = true
        · rw [xml_info_segment_text lib name arg data hQ h0 hmd' hp]
          simp
        · have hp' : okay_to_print lib.char_signed data = false := by simpa using hp
          rw [xml_info_segment_b64 lib name arg data hQ h0 hmd' hp']
          by_cases h1 : data.length = 1
          · have hb := (b64_ntop_b64size data).2 h1
            rw [hb]
            exact ⟨fun _ => ⟨rfl, h1⟩, fun _ => rfl⟩
          · have hb := (b64_ntop_b64size data).1 h1
            rw [hb]
            exact ⟨fun h => Option.noConfusion h, fun h => absurd h.2 h1⟩

/-- C3: the segment "operator_name" with the one-byte payload 07 takes the Base64 branch, and
there the iteration writes no defined element: after the opening tag has been started,
`b64_ntop` returns -1 for the 4-byte buffer, the store `b64buf[b64size_real] = 0` falls
outside the buffer and the content `fputs` would write is not determined. -/
theorem one_byte_base64_writes_no_element :
    (xml_info_segment sample_lib "operator_name".toList 0 [7]).branch = Branch.Base64 ∧
    b64_ntop [7] (([7] : List Byte).length * 2 + 2) = none ∧
    (xml_info_segment sample_lib "operator_name".toList 0 [7]).body = none ∧
    (xml_info_segment sample_lib "operator_name".toList 0 [7]).text = none := by
  decide

/-- C9, as the claim states it, fails: under a display-as-quad convention that accepts the
name "a_b", the segment named "a-b" with the printable 8-byte payload "12345678" and no
quadword bit has a name the convention rejects and a tag name that does not end in "md5",
and it is emitted as Quad64, not as EscapedText. -/
theorem printable_8_bytes_quad_by_tag_name :
    ([49, 50, 51, 52, 53, 54, 55, 56] : List Byte).length = 8 ∧
    okay_to_print sample_underscore_lib.char_signed [49, 50, 51, 52, 53, 54, 55, 56] = true ∧
    Nat.land (0 % 2 ^ 32) sample_underscore_lib.AF_SEG_QUADWORD = 0 ∧
    sample_underscore_lib.af_display_as_quad "a-b".toList = false ∧
    ends_md5 (sanitize "a-b".toList) = false ∧
    (xml_info_segment sample_underscore_lib "a-b".toList 0
      [49, 50, 51, 52, 53, 54, 55, 56]).branch = Branch.Quad64 ∧
    (xml_info_segment sample_underscore_lib "a-b".toList 0
      [49, 50, 51, 52, 53, 54, 55, 56]).branch ≠ Branch.EscapedText := by
  decide

/-- C13, as the claim states it, fails: with 2-byte sectors, a 6-byte buffer and pages of 6,
6 and 5 bytes, the page lists 0, 1, 2 and 1, 0, 2 give different tallies. The last sector of
page 2 is its fifth byte and the sixth byte of the buffer, which is what the page read before
it left there: 0 after page 1, 1 after page 0. -/
theorem stats_order_matters_on_partial_sector :
    List.Perm ([0, 1, 2] : List Int) [1, 0, 2] ∧
    xml_info_stats_buf sample_partial_pages [9, 9, 9, 9, 9, 9] [0, 1, 2] =
      some { zsectors := 6, badsectors := 0, zpages := 2, pages := 3, sectors := 9 } ∧
    xml_info_stats_buf sample_partial_pages [9, 9, 9, 9, 9, 9] [1, 0, 2] =
      some { zsectors := 5, badsectors := 0, zpages := 1, pages := 3, sectors := 9 } ∧
    xml_info_stats_buf sample_partial_pages [9, 9, 9, 9, 9, 9] [0, 1, 2] ≠
      xml_info_stats_buf sample_partial_pages [9, 9, 9, 9, 9, 9] [1, 0, 2] := by
  decide

/-- C13, amended: with a sector size `S >= 1` and every page of the list retrieved with a
length that is a multiple of `S` and fits the page buffer, the statistics loop, reusing its
one buffer, gives for the page list and for every permutation of it the same tally, all five
counters equal, whatever the buffer held at first: the reference tally modulo `2^64`. -/
theorem stats_perm_whole_sectors (lib : Afflib) (buf : List Byte) (l1 l2 : List Int)
    (hperm : List.Perm l1 l2) (hS : 1 ≤ lib.af_get_sectorsize)
    (hpages : ∀ it ∈ l1, ∃ data, lib.af_get_page it = some data ∧
      lib.af_get_sectorsize ∣ data.length ∧ data.length ≤ buf.length) :
    xml_info_stats_buf lib buf l1 = some
      { zsectors := (ref_tally lib l1).zsectors % 2 ^ 64
        badsectors := (ref_tally lib l1).badsectors % 2 ^ 64
        zpages := (ref_tally lib l1).zpages % 2 ^ 64
        pages := (ref_tally lib l1).pages % 2 ^ 64
        sectors := (ref_tally lib l1).sectors % 2 ^ 64 } ∧
    xml_info_stats_buf lib buf l2 = xml_info_stats_buf lib buf l1 := by
  have hz : (0 : Nat) < 2 ^ 64 := by norm_num
  have hpages2 : ∀ it ∈ l2, ∃ data, lib.af_get_page it = some data ∧
      lib.af_get_sectorsize ∣ data.length ∧ data.length ≤ buf.length :=
    fun it hit => hpages it (hperm.mem_iff.mpr hit)
  have hspec : ∀ it ∈ l1, ∃ data, lib.af_get_page it = some data ∧
      lib.af_get_sectorsize ∣ data.length := by
    intro it hit
    obtain ⟨d, h1, h2, -⟩ := hpages it hit
    exact ⟨d, h1, h2⟩
  have e1 : xml_info_stats_buf lib buf l1 = stats_loop lib l1 psb_zero :=
    stats_loop_buf_whole lib hS l1 buf psb_zero hpages
  have e2 : xml_info_stats_buf lib buf l2 = stats_loop lib l2 psb_zero :=
    stats_loop_buf_whole lib hS l2 buf psb_zero hpages2
  refine ⟨?_, ?_⟩
  · rw [e1, stats_loop_spec lib hS l1 psb_zero hspec]
    simp only [psb_zero, incr64_iterate _ 0 hz, Nat.zero_add]
  · rw [e1, e2]
    exact ((stats_loop_perm lib l1 l2 hperm).1 psb_zero).symm

/-- The amended C13 at 2-byte sectors, a 6-byte buffer and the page list 0, 1, 2, 1 with its
rearrangement 1, 1, 2, 0: the same tally of 4 pages, 8 sectors, 4 blank sectors, 2 bad
sectors and 2 blank pages. -/
theorem stats_perm_whole_sectors_witness :
    List.Perm ([0, 1, 2, 1] : List Int) [1, 1, 2, 0] ∧
    1 ≤ sample_pages.af_get_sectorsize ∧
    xml_info_stats_buf sample_pages [9, 9, 9, 9, 9, 9] [0, 1, 2, 1] =
      some { zsectors := 4, badsectors := 2, zpages := 2, pages := 4, sectors := 8 } ∧
    xml_info_stats_buf sample_pages [9, 9, 9, 9, 9, 9] [1, 1, 2, 0] =
      some { zsectors := 4, badsectors := 2, zpages := 2, pages := 4, sectors := 8 } := by
  have hpages : ∀ it ∈ ([0, 1, 2, 1] : List Int), ∃ data,
      sample_pages.af_get_page it = some data ∧
      sample_pages.af_get_sectorsize ∣ data.length ∧
      data.length ≤ ([9, 9, 9, 9, 9, 9] : List Byte).length := by
    intro it hit
    simp only [List.mem_cons, List.mem_singleton, List.not_mem_nil, or_false] at hit
    rcases hit with h | h | h | h <;> subst h
    · exact ⟨[0, 0, 0, 0], rfl, by decide, by decide⟩
    · exact ⟨[0, 0, 255, 1, 7, 0], rfl, by decide, by decide⟩
    · exact ⟨[], rfl, by decide, by decide⟩
    · exact ⟨[0, 0, 255, 1, 7, 0], rfl, by decide, by decide⟩
  have h := stats_perm_whole_sectors sample_pages [9, 9, 9, 9, 9, 9] [0, 1, 2, 1]
    [1, 1, 2, 0] (by decide) (by decide) hpages
  have hval : xml_info_stats_buf sample_pages [9, 9, 9, 9, 9, 9] [0, 1, 2, 1] =
      some { zsectors := 4, badsectors := 2, zpages := 2, pages := 4, sectors := 8 } :=
    h.1.trans (by decide)
  exact ⟨by decide, by decide, hval, h.2.trans hval⟩

end Affxml
